import Mathlib

/-!
Shallow embedding of the `migration_updater` Django management command
(`migration_updater/management/commands/migration_updater.py`).

The command loads the migration records of a configured tuple of app names,
builds a dependency graph, discovers which migrations have been replaced by
squashing migrations, optionally hides the replaced nodes while redirecting
dependency edges to the replacement, renders the graph as GraphViz text,
and optionally rewrites or deletes migration files on disk.

Records are modelled as explicit input (the filesystem loader of lines 44-64
is a collaborator): a record carries its identity, its `dependencies` and
`replaces` lists, the path of its source file and the file's text.  The
loader yields records with pairwise distinct identities, in directory order;
list order stands for load order.  Python dicts are modelled as
insertion-ordered association lists with update-in-place assignment, and
Python sets as duplicate-free lists (their iteration order is only ever
observed through `sorted`, which is modelled by an insertion sort).
-/

/-- A migration identity: the pair `(app_label, migration_name)`. -/
abbrev MigId := String × String

/-- An entry of a `dependencies` or `replaces` list found in a migration
module: either a 2-tuple, modelled as a `MigId`, or any non-tuple value,
which the command skips via `isinstance(x, tuple)` checks
(lines 68, 82 and 160 of the source). -/
inductive Entry where
  | id : MigId → Entry
  | junk : Entry
deriving DecidableEq

/-- A loaded migration record: identity, `dependencies`, `replaces`, the
absolute path of its `.py` file, and the file's current text. -/
structure Rec where
  id : MigId
  dependencies : List Entry
  replaces : List Entry
  path : String
  text : String
deriving DecidableEq

/-- Lookup in a Python dict modelled as an insertion-ordered association
list (`replaced_nodes` in the source). -/
def dlookup : List (MigId × MigId) → MigId → Option MigId
  | [], _ => none
  | (k, v) :: rest, x => if k = x then some v else dlookup rest x

/-- Python dict assignment `d[k] = v`: replace the value in place when the
key is present (keeping its insertion position), otherwise append. -/
def dinsert : List (MigId × MigId) → MigId → MigId → List (MigId × MigId)
  | [], k, v => [(k, v)]
  | (k0, v0) :: rest, k, v =>
    if k0 = k then (k0, v) :: rest else (k0, v0) :: dinsert rest k v

/-- Python `k in d` membership test on the dict model. -/
def isKey (m : List (MigId × MigId)) (x : MigId) : Bool := (dlookup m x).isSome

/-- Python `set.add` on a set modelled as a duplicate-free list. -/
def nadd (s : List MigId) (x : MigId) : List MigId := if x ∈ s then s else s ++ [x]

/-- `edges.get(src, set())` on the `defaultdict(set)` model: the edge map is
an association list from a source id to the list of its destinations. -/
def eget : List (MigId × List MigId) → MigId → List MigId
  | [], _ => []
  | (k, ds) :: rest, x => if k = x then ds else eget rest x

/-- `edges[src].add(dst)` on the `defaultdict(set)` model: add `d` to the
destination set of `s`, creating the entry when absent. -/
def eadd : List (MigId × List MigId) → MigId → MigId → List (MigId × List MigId)
  | [], s, d => [(s, [d])]
  | (k, ds) :: rest, s, d =>
    if k = s then (k, if d ∈ ds then ds else ds ++ [d]) :: rest
    else (k, ds) :: eadd rest s d

/-- The loader boundary (lines 44-64): only apps listed in `app_names` are
visited, so the loaded record list is the input restricted to those groups. -/
def loadRecs (recs : List Rec) (appNames : List String) : List Rec :=
  recs.filter (fun r => r.id.1 ∈ appNames)

/-- Replacement discovery and squashing-set collection (lines 65-71): a
record with a non-empty `replaces` list joins `squashing_migrations`; every
tuple entry of `replaces` whose group is in `app_names` is mapped to the
squashing record's id in `replaced_nodes` (assignment, so a later
declaration of the same replaced id overwrites an earlier one). -/
def discoverReplacements (recs : List Rec) (appNames : List String) :
    List (MigId × MigId) × List MigId :=
  recs.foldl (fun acc r =>
    let sq := if r.replaces ≠ [] then nadd acc.2 r.id else acc.2
    let m := r.replaces.foldl (fun m e =>
      match e with
      | Entry.id rep => if rep.1 ∈ appNames then dinsert m rep r.id else m
      | Entry.junk => m) acc.1
    (m, sq)) ([], [])

/-- Big-step semantics of the loop at lines 85-86,
`while src in replaced_nodes and hide_squashed_nodes: src = replaced_nodes[src]`:
`Resolves m hide x z` holds exactly when the loop started at `x` terminates
with final value `z`.  A start value from which no derivation exists is one
on which the loop runs forever. -/
inductive Resolves (m : List (MigId × MigId)) (hide : Bool) : MigId → MigId → Prop where
  | exit (x : MigId) : hide = false ∨ dlookup m x = none → Resolves m hide x x
  | step (x y z : MigId) : hide = true → dlookup m x = some y →
      Resolves m hide y z → Resolves m hide x z

/-- Fuel-bounded evaluator for the same loop: `some z` means the loop exits
with `z` within the given number of iterations, `none` means the fuel ran
out with the loop condition still true. -/
def resolveFuel (m : List (MigId × MigId)) (hide : Bool) : Nat → MigId → Option MigId
  | 0, x =>
    match hide, dlookup m x with
    | true, some _ => none
    | _, _ => some x
  | n + 1, x =>
    match hide, dlookup m x with
    | true, some y => resolveFuel m hide n y
    | _, _ => some x

/-- A diagnostic notice emitted at lines 87-99 when a dependency id was
redirected: original id, resolved id, the dependent record, and whether the
notice used the error style (`dst in replaced_nodes`). -/
structure Diag where
  original : MigId
  resolved : MigId
  dst : MigId
  isError : Bool
deriving DecidableEq

/-- The graph-construction output: `all_nodes`, `edges` and the emitted
substitution diagnostics. -/
structure BuildOut where
  nodes : List MigId
  edges : List (MigId × List MigId)
  diags : List Diag
deriving DecidableEq

/-- Processing of one dependency entry of the record `rid` by the inner
loop at lines 81-102.  `res` is the result of the redirection loop at lines
85-86 for each dependency id; theorems relate it to `Resolves`.  A non-tuple
entry is skipped; for a tuple entry `src`: a diagnostic is emitted when
`res src` differs from `src` (error style exactly when `rid` is itself a
replaced record), and the edge `res src -> rid` plus the node `res src` are
registered when the resolved id's group is configured. -/
def depStep (appNames : List String) (m : List (MigId × MigId))
    (res : MigId → MigId) (rid : MigId) (acc : BuildOut) (e : Entry) : BuildOut :=
  match e with
  | Entry.junk => acc
  | Entry.id src =>
    let src2 := res src
    let acc := if src2 ≠ src then
        { acc with diags := acc.diags ++ [⟨src, src2, rid, isKey m rid⟩] }
      else acc
    if src2.1 ∈ appNames then
      { acc with edges := eadd acc.edges src2 rid, nodes := nadd acc.nodes src2 }
    else acc

/-- Processing of one whole record (lines 77-103): its dependency loop
followed by `all_nodes.add(dst)`, all skipped for an unconfigured group. -/
def buildStep (appNames : List String) (m : List (MigId × MigId))
    (res : MigId → MigId) (acc : BuildOut) (r : Rec) : BuildOut :=
  if r.id.1 ∈ appNames then
    let acc2 := r.dependencies.foldl (depStep appNames m res r.id) acc
    { acc2 with nodes := nadd acc2.nodes r.id }
  else acc

/-- The graph-building loop over all loaded records (lines 77-103). -/
def buildGraph (recs : List Rec) (appNames : List String)
    (m : List (MigId × MigId)) (res : MigId → MigId) : BuildOut :=
  recs.foldl (buildStep appNames m res) ⟨[], [], []⟩

/-- Strict lexicographic comparison of character lists by code point,
mirroring Python string comparison. -/
def charsLt : List Char → List Char → Bool
  | [], [] => false
  | [], _ :: _ => true
  | _ :: _, [] => false
  | c :: cs, d :: ds =>
    if c.toNat < d.toNat then true
    else if d.toNat < c.toNat then false
    else charsLt cs ds

/-- Python string comparison `a < b` (lexicographic by code point). -/
def strLt (a b : String) : Bool := charsLt a.data b.data

/-- Lexicographic comparison of identities, mirroring Python tuple/string
comparison used by `sorted` at lines 112, 134 and 137. -/
def idLe (a b : MigId) : Bool :=
  strLt a.1 b.1 || (a.1 == b.1 && (strLt a.2 b.2 || a.2 == b.2))

/-- Insert into a sorted list, keeping earlier elements first on ties. -/
def insertLe (le : α → α → Bool) (x : α) : List α → List α
  | [] => [x]
  | y :: ys => if le x y then x :: y :: ys else y :: insertLe le x ys

/-- Stable insertion sort modelling Python `sorted`; on the pairwise
distinct identities that occur here it produces exactly Python's order. -/
def isort (le : α → α → Bool) : List α → List α
  | [] => []
  | x :: xs => insertLe le x (isort le xs)

/-- One line written into the GraphViz buffer: a node declaration with its
fill color and label (lines 125-128), or an edge (lines 132 and 140). -/
inductive GLine where
  | node : MigId → String → String → GLine
  | edge : MigId → MigId → GLine
deriving DecidableEq

/-- The fill color and label computed for a node at lines 116-124: red when
some destination lies in another group and is not a replaced node, the
squash and squashed label suffixes, and the grey override for a shown
replaced node. -/
def colorLabel (s : MigId) (dset : List MigId) (m : List (MigId × MigId))
    (squash : List MigId) : String × String :=
  let color := if dset.any (fun d => !isKey m d && d.1 != s.1) then "#d9534f" else "#79aec8"
  let label := s.1 ++ ":" ++ s.2
  let label := if s ∈ squash then label ++ " (squash)" else label
  if isKey m s then ("#eeeeee", label ++ " (squashed)") else (color, label)

/-- The node-declaration lines of the output (lines 112-128): nodes in
sorted order, skipping replaced nodes when they are hidden. -/
def nodeLines (nodes : List MigId) (edges : List (MigId × List MigId))
    (m : List (MigId × MigId)) (squash : List MigId) (hide : Bool) : List GLine :=
  (isort idLe nodes).filterMap (fun s =>
    if isKey m s && hide then none
    else
      let cl := colorLabel s (eget edges s) m squash
      some (GLine.node s cl.1 cl.2))

/-- The extra replaced-node-to-replacement edges written at lines 130-132,
only when replaced nodes are shown, in dict insertion order. -/
def extraEdgeLines (m : List (MigId × MigId)) (hide : Bool) : List GLine :=
  if hide then [] else m.map (fun kv => GLine.edge kv.1 kv.2)

/-- Ordering of `sorted(edges.items())`: the keys are pairwise distinct so
Python compares only the key components. -/
def edgeLe (a b : MigId × List MigId) : Bool := idLe a.1 b.1

/-- The regular edge lines of the output (lines 134-140): edge entries
sorted by source, destinations sorted, skipping any edge whose source or
destination is a hidden replaced node. -/
def regularEdgeLines (edges : List (MigId × List MigId))
    (m : List (MigId × MigId)) (hide : Bool) : List GLine :=
  (isort edgeLe edges).foldr (fun sd acc =>
    if isKey m sd.1 && hide then acc
    else ((isort idLe sd.2).filterMap (fun d =>
      if isKey m d && hide then none else some (GLine.edge sd.1 d))) ++ acc) []

/-- All lines written between the `digraph` wrapper lines, in buffer order
(lines 106-141). -/
def renderLines (nodes : List MigId) (edges : List (MigId × List MigId))
    (m : List (MigId × MigId)) (squash : List MigId) (hide : Bool) : List GLine :=
  nodeLines nodes edges m squash hide ++ extraEdgeLines m hide ++
    regularEdgeLines edges m hide

/-- The GraphViz identifier of a node, `"%s_%s"` (lines 109-110). -/
def keyOf (i : MigId) : String := i.1 ++ "_" ++ i.2

/-- Serialization of one buffer line (lines 125-128, 132, 140). -/
def lineText : GLine → String
  | GLine.node i c l =>
    "    " ++ keyOf i ++ " [fillcolor=\"" ++ c ++ "\", style=\"filled\", label=\"" ++
      l ++ "\"];\n"
  | GLine.edge s d => "    " ++ keyOf s ++ " -> " ++ keyOf d ++ ";\n"

/-- The full GraphViz document written to the buffer (lines 106-141). -/
def dotText (nodes : List MigId) (edges : List (MigId × List MigId))
    (m : List (MigId × MigId)) (squash : List MigId) (hide : Bool) : String :=
  "digraph migrations \x7b\n" ++
    String.join ((renderLines nodes edges m squash hide).map lineText) ++ "\x7d\n"

/-- The regex pattern built at line 164 for a replaced dependency id:
`r"\(\s*['\"]%s['\"]\s*,\s*['\"]%s['\"]\s*)" % src`.  Note the trailing
closing parenthesis, which, unlike the opening one, is not escaped. -/
def subPattern (src : MigId) : String :=
  "\\(\\s*['\\\"]" ++ src.1 ++ "['\\\"]\\s*,\\s*['\\\"]" ++ src.2 ++ "['\\\"]\\s*)"

/-- Scanner for the parenthesis-balance check Python's `re` performs when
compiling a pattern: tracks group depth, character-class state and a pending
backslash escape.  It returns `false` exactly when compilation fails with
an unbalanced or unterminated construct. -/
def reScan : List Char → Nat → Bool → Bool → Bool
  | [], d, inClass, pendingEsc => !inClass && !pendingEsc && d == 0
  | _ :: cs, d, inClass, true => reScan cs d inClass false
  | c :: cs, d, true, false =>
    if c = '\\' then reScan cs d true true
    else if c = ']' then reScan cs d false false
    else reScan cs d true false
  | c :: cs, d, false, false =>
    if c = '\\' then reScan cs d false true
    else if c = '[' then reScan cs d true false
    else if c = '(' then reScan cs (d + 1) false false
    else if c = ')' then (if d == 0 then false else reScan cs (d - 1) false false)
    else reScan cs d false false

/-- Whether Python `re.compile` accepts the pattern's bracket structure. -/
def reBalanced (pat : String) : Bool := reScan pat.data 0 false false

/-- The substitution a successfully compiled pattern would perform.  Every
pattern this command constructs from parenthesis-free app and migration
names fails to compile (see the theorems about `subPattern`), so within
this development this branch is exercised by no theorem; it is modelled as
the identity on the text. -/
def reSubOk (_pat _repl s : String) : String := s

/-- Model of `re.sub(pat, repl, s)` (line 163): compiling the pattern fails
with `re.error` when its brackets are unbalanced, which aborts the command;
otherwise the compiled substitution runs. -/
def pySub (pat repl s : String) : Except String String :=
  if reBalanced pat then Except.ok (reSubOk pat repl s) else
    Except.error "unbalanced parenthesis"

/-- The replacement text built at line 162: `'("%s", "%s")' % replaced_nodes[src]`. -/
def dstName (v : MigId) : String := "(\"" ++ v.1 ++ "\", \"" ++ v.2 ++ "\")"

/-- The new text of one record under the rewrite loop at lines 159-167: for
each tuple dependency entry that is a key of `replaced_nodes`, substitute
its encoded reference by the encoded replacement; an `re.error` raised by
any substitution aborts the record's processing. -/
def recNewText (m : List (MigId × MigId)) (r : Rec) : Except String String :=
  r.dependencies.foldl (fun acc e =>
    acc.bind (fun s =>
      match e with
      | Entry.junk => Except.ok s
      | Entry.id src =>
        match dlookup m src with
        | some v => pySub (subPattern src) (dstName v) s
        | none => Except.ok s)) (Except.ok r.text)

/-- The outcome of a file-mutating pass: the `(path, text)` writes performed,
the success notices printed, and whether the pass was aborted by an
exception (later records are then not processed, earlier writes persist). -/
structure RWOut where
  writes : List (String × String)
  msgs : List String
  failed : Bool
deriving DecidableEq

/-- The `--replace-squashed-dependencies` pass (lines 154-170): every loaded
record is read, its dependency references rewritten via `recNewText`,
written back, and reported as updated; a raised `re.error` propagates and
stops the pass. -/
def replaceSquashedDeps (lr : List Rec) (m : List (MigId × MigId)) : RWOut :=
  lr.foldl (fun acc r =>
    if acc.failed then acc
    else
      match recNewText m r with
      | Except.ok t =>
        { acc with writes := acc.writes ++ [(r.path, t)],
                   msgs := acc.msgs ++ [r.path ++ " updated"] }
      | Except.error _ => { acc with failed := true }) ⟨[], [], false⟩

/-- The `--remove-squashed-dependencies` pass (lines 172-176): delete the
file of every loaded record whose id is a key of `replaced_nodes`,
returning the deleted paths in order. -/
def removeSquashedRecords (lr : List Rec) (m : List (MigId × MigId)) : List String :=
  lr.foldl (fun acc r => if isKey m r.id then acc ++ [r.path] else acc) []

/-- The redirection loop is deterministic: a run from one start value can
reach at most one final value. -/
theorem Resolves.det {m : List (MigId × MigId)} {hide : Bool} {x z1 z2 : MigId}
    (h1 : Resolves m hide x z1) (h2 : Resolves m hide x z2) : z1 = z2 := by
  induction h1 generalizing z2 with
  | exit x hx =>
    cases h2 with
    | exit _ _ => rfl
    | step _ y _ hh hl _ =>
      rcases hx with hf | hn
      · rw [hh] at hf; cases hf
      · rw [hn] at hl; cases hl
  | step x y z hh hl _ ih =>
    cases h2 with
    | exit _ hx =>
      rcases hx with hf | hn
      · rw [hh] at hf; cases hf
      · rw [hn] at hl; cases hl
    | step _ y' _ _ hl' hr' =>
      rw [hl] at hl'
      cases hl'
      exact ih hr'

/-- A fuel-bounded run that exits is a genuine terminating run of the loop. -/
theorem resolveFuel_sound {m : List (MigId × MigId)} {hide : Bool} :
    ∀ {n : Nat} {x z : MigId}, resolveFuel m hide n x = some z → Resolves m hide x z := by
  intro n
  induction n with
  | zero =>
    intro x z h
    unfold resolveFuel at h
    cases hh : hide with
    | false =>
      subst hh
      simp at h
      subst h
      exact Resolves.exit x (Or.inl rfl)
    | true =>
      subst hh
      cases hl : dlookup m x with
      | none =>
        rw [hl] at h
        simp at h
        subst h
        exact Resolves.exit x (Or.inr hl)
      | some y => rw [hl] at h; cases h
  | succ n ih =>
    intro x z h
    unfold resolveFuel at h
    cases hh : hide with
    | false =>
      subst hh
      simp at h
      subst h
      exact Resolves.exit x (Or.inl rfl)
    | true =>
      subst hh
      cases hl : dlookup m x with
      | none =>
        rw [hl] at h
        simp at h
        subst h
        exact Resolves.exit x (Or.inr hl)
      | some y =>
        rw [hl] at h
        exact Resolves.step x y z rfl hl (ih h)

/-- C1 failing input: migration `("app", "a")` declares it replaces
`("app", "b")` and vice versa — a declared replacement cycle. -/
def cycRecs : List Rec :=
  [⟨("app", "a"), [], [Entry.id ("app", "b")], "app/migrations/a.py", "A"⟩,
   ⟨("app", "b"), [], [Entry.id ("app", "a")], "app/migrations/b.py", "B"⟩]

/-- The replacement map the command builds from `cycRecs`. -/
def cycMap : List (MigId × MigId) :=
  (discoverReplacements (loadRecs cycRecs ["app"]) ["app"]).1

theorem cycMap_eq : cycMap = [(("app", "b"), ("app", "a")), (("app", "a"), ("app", "b"))] := by
  decide

theorem cyc_no_exit : ∀ x z : MigId, Resolves cycMap true x z →
    x ≠ ("app", "a") ∧ x ≠ ("app", "b") := by
  intro x z h
  induction h with
  | exit x hx =>
    rcases hx with hf | hn
    · cases hf
    · constructor
      · intro hxa
        subst hxa
        rw [show dlookup cycMap ("app", "a") = some ("app", "b") from by decide] at hn
        cases hn
      · intro hxb
        subst hxb
        rw [show dlookup cycMap ("app", "b") = some ("app", "a") from by decide] at hn
        cases hn
  | step x y z _ hl _ ih =>
    constructor
    · intro hxa
      subst hxa
      rw [show dlookup cycMap ("app", "a") = some ("app", "b") from by decide] at hl
      cases hl
      exact ih.2 rfl
    · intro hxb
      subst hxb
      rw [show dlookup cycMap ("app", "b") = some ("app", "a") from by decide] at hl
      cases hl
      exact ih.1 rfl

/-- C1: the claim says the dependency-resolution step always terminates,
even when the declared replacements form a cycle.  On the input `cycRecs`,
where `a` replaces `b` and `b` replaces `a`, the `while` loop at lines
85-86 started from the dependency id `("app", "a")` with replaced nodes
hidden admits no terminating run at all: the code loops forever. -/
theorem resolution_diverges_on_cycle :
    ¬ ∃ z : MigId,
      Resolves (discoverReplacements (loadRecs cycRecs ["app"]) ["app"]).1
        true ("app", "a") z := by
  rintro ⟨z, h⟩
  exact (cyc_no_exit ("app", "a") z h).1 rfl

theorem dlookup_dinsert (m : List (MigId × MigId)) (k v x : MigId) :
    dlookup (dinsert m k v) x = if k = x then some v else dlookup m x := by
  induction m with
  | nil => simp [dinsert, dlookup]
  | cons kv rest ih =>
    obtain ⟨k0, v0⟩ := kv
    by_cases hk : k0 = k
    · subst hk
      simp only [dinsert, if_pos rfl, dlookup]
      by_cases hx : k0 = x <;> simp [hx]
    · simp only [dinsert, if_neg hk, dlookup]
      by_cases hx : k0 = x
      · subst hx
        have hne : ¬ k = k0 := fun h => hk h.symm
        simp [if_neg hne]
      · simp [if_neg hx, ih]

/-- Whether one `replaces` list declares `x` as replaced in a way the
command records: a tuple entry equal to `x` whose group is configured. -/
def declaresB (es : List Entry) (appNames : List String) (x : MigId) : Bool :=
  es.any (fun e =>
    match e with
    | Entry.id rep => rep == x && decide (rep.1 ∈ appNames)
    | Entry.junk => false)

theorem dlookup_replFold (es : List Entry) (appNames : List String)
    (rid : MigId) (m : List (MigId × MigId)) (x : MigId) :
    dlookup (es.foldl (fun m e =>
      match e with
      | Entry.id rep => if rep.1 ∈ appNames then dinsert m rep rid else m
      | Entry.junk => m) m) x =
      if declaresB es appNames x then some rid else dlookup m x := by
  induction es generalizing m with
  | nil => simp [declaresB]
  | cons e es ih =>
    simp only [List.foldl_cons, ih]
    cases e with
    | junk => simp [declaresB, List.any_cons]
    | id rep =>
      simp only [declaresB, List.any_cons]
      by_cases hrest : es.any (fun e =>
          match e with
          | Entry.id rep => rep == x && decide (rep.1 ∈ appNames)
          | Entry.junk => false) = true
      · simp [declaresB] at hrest ⊢
        simp [hrest]
      · simp [declaresB] at hrest
        by_cases hgrp : rep.1 ∈ appNames
        · by_cases heq : rep = x
          · subst heq
            simp [hgrp, hrest, dlookup_dinsert, declaresB]
          · have : (rep == x) = false := beq_false_of_ne heq
            simp [hgrp, hrest, dlookup_dinsert, heq, this, declaresB]
        · have : decide (rep.1 ∈ appNames) = false := by simpa using hgrp
          simp [hgrp, hrest, this, declaresB]

/-- C8 counterexample: a record that lists its own id in `replaces`.  The
map built at lines 65-71 then has a key mapping to itself, contradicting
the claim's "no key maps to itself". -/
def selfRecs : List Rec :=
  [⟨("app", "a"), [], [Entry.id ("app", "a")], "app/migrations/a.py", "A"⟩]

/-- C8 counterexample: on `selfRecs` the replacement map maps the record's
own id to itself. -/
theorem replacement_map_self_key :
    dlookup (discoverReplacements (loadRecs selfRecs ["app"]) ["app"]).1
      ("app", "a") = some ("app", "a") := by decide

/-- C8 amended: a key can map to itself (when a record declares its own id
replaced); what does hold is last-writer-wins: after processing one more
record, a replaced id it declares (as a tuple, with configured group) maps
to that record's id, and every other id maps as before, so each replaced id
maps to exactly one replacement — the one declared by the last record in
processing order. -/
theorem replacement_map_last_writer_wins (recs : List Rec)
    (appNames : List String) (r : Rec) (x : MigId) :
    dlookup (discoverReplacements (recs ++ [r]) appNames).1 x =
      if declaresB r.replaces appNames x then some r.id
      else dlookup (discoverReplacements recs appNames).1 x := by
  unfold discoverReplacements
  rw [List.foldl_append]
  simp only [List.foldl_cons, List.foldl_nil]
  exact dlookup_replFold r.replaces appNames r.id _ x

theorem removeSquashed_foldl_mem (m : List (MigId × MigId)) (lr : List Rec)
    (acc : List String) (p : String) :
    p ∈ lr.foldl (fun acc r => if isKey m r.id then acc ++ [r.path] else acc) acc ↔
      p ∈ acc ∨ ∃ r, r ∈ lr ∧ isKey m r.id = true ∧ r.path = p := by
  induction lr generalizing acc with
  | nil => simp
  | cons r lr ih =>
    simp only [List.foldl_cons]
    by_cases hk : isKey m r.id = true
    · rw [if_pos hk, ih]
      constructor
      · rintro (hacc | hrest)
        · rcases List.mem_append.mp hacc with h | h
          · exact Or.inl h
          · simp only [List.mem_singleton] at h
            exact Or.inr ⟨r, List.mem_cons_self r lr, hk, h.symm⟩
        · obtain ⟨r0, hr0, hk0, hp0⟩ := hrest
          exact Or.inr ⟨r0, List.mem_cons_of_mem r hr0, hk0, hp0⟩
      · rintro (hacc | ⟨r0, hr0, hk0, hp0⟩)
        · exact Or.inl (List.mem_append.mpr (Or.inl hacc))
        · rcases List.mem_cons.mp hr0 with rfl | hr0
          · exact Or.inl (List.mem_append.mpr (Or.inr (by simp [hp0.symm])))
          · exact Or.inr ⟨r0, hr0, hk0, hp0⟩
    · rw [if_neg hk, ih]
      constructor
      · rintro (hacc | ⟨r0, hr0, hk0, hp0⟩)
        · exact Or.inl hacc
        · exact Or.inr ⟨r0, List.mem_cons_of_mem r hr0, hk0, hp0⟩
      · rintro (hacc | ⟨r0, hr0, hk0, hp0⟩)
        · exact Or.inl hacc
        · rcases List.mem_cons.mp hr0 with rfl | hr0
          · exact absurd hk0 hk
          · exact Or.inr ⟨r0, hr0, hk0, hp0⟩

/-- C7: the deletion pass (lines 172-176) deletes the file of every loaded
record whose id is a key of the replacement map, and every deleted path is
the file of such a record — no non-replaced record's file is removed. -/
theorem removal_deletes_exactly_replaced (recs : List Rec) (appNames : List String) :
    (∀ r ∈ loadRecs recs appNames,
        isKey (discoverReplacements (loadRecs recs appNames) appNames).1 r.id = true →
        r.path ∈ removeSquashedRecords (loadRecs recs appNames)
          (discoverReplacements (loadRecs recs appNames) appNames).1) ∧
    (∀ p ∈ removeSquashedRecords (loadRecs recs appNames)
          (discoverReplacements (loadRecs recs appNames) appNames).1,
        ∃ r, r ∈ loadRecs recs appNames ∧ r.path = p ∧
          isKey (discoverReplacements (loadRecs recs appNames) appNames).1 r.id = true) := by
  constructor
  · intro r hr hk
    exact (removeSquashed_foldl_mem _ _ [] _).mpr (Or.inr ⟨r, hr, hk, rfl⟩)
  · intro p hp
    rcases (removeSquashed_foldl_mem _ _ [] _).mp hp with h | ⟨r, hr, hk, hpath⟩
    · cases h
    · exact ⟨r, hr, hpath, hk⟩

/-- The squash scenario of the specification: `0001` and `0002` replaced by
`0003_squashed`, and `0004` depending on `0002`. -/
def squashRecs : List Rec :=
  [⟨("app", "0001"), [], [], "app/migrations/0001.py", "T1"⟩,
   ⟨("app", "0002"), [Entry.id ("app", "0001")], [], "app/migrations/0002.py", "T2"⟩,
   ⟨("app", "0003_squashed"), [],
     [Entry.id ("app", "0001"), Entry.id ("app", "0002")],
     "app/migrations/0003_squashed.py", "T3"⟩,
   ⟨("app", "0004"), [Entry.id ("app", "0002")], [], "app/migrations/0004.py", "T4"⟩]

theorem removal_deletes_exactly_replaced_witness :
    "app/migrations/0001.py" ∈ removeSquashedRecords (loadRecs squashRecs ["app"])
        (discoverReplacements (loadRecs squashRecs ["app"]) ["app"]).1 ∧
    "app/migrations/0003_squashed.py" ∉
      removeSquashedRecords (loadRecs squashRecs ["app"])
        (discoverReplacements (loadRecs squashRecs ["app"]) ["app"]).1 := by
  constructor
  · exact (removal_deletes_exactly_replaced squashRecs ["app"]).1
      ⟨("app", "0001"), [], [], "app/migrations/0001.py", "T1"⟩ (by decide) (by decide)
  · decide

/-- C3: on the squash scenario the rewrite pass aborts instead of
substituting.  The pattern built at line 164 for a replaced dependency id
leaves its final closing parenthesis unescaped, so `re.compile` rejects it
as unbalanced and `re.sub` raises before any substitution: the pass fails
on every input on which it would have to rewrite anything, and in
particular applying it "twice" never reaches the state the idempotence
claim describes. -/
theorem rewrite_crashes_on_substitution :
    (replaceSquashedDeps (loadRecs squashRecs ["app"])
        (discoverReplacements (loadRecs squashRecs ["app"]) ["app"]).1).failed = true ∧
    reBalanced (subPattern ("app", "0001")) = false := by decide

/-- C6 counterexample input: `0001` is replaced by `0002_sq`; both records
are loaded and neither needs a substitution. -/
def touchRecs : List Rec :=
  [⟨("app", "0001"), [], [], "app/migrations/0001.py", "T1"⟩,
   ⟨("app", "0002_sq"), [], [Entry.id ("app", "0001")],
     "app/migrations/0002_sq.py", "T2"⟩]

/-- C6 counterexample: the rewrite loop (line 155) iterates over every
loaded record, so the replaced record `0001` is also read, written back and
reported as updated, contradicting the claim that only non-replaced records
are read and rewritten. -/
theorem rewrite_touches_replaced_record :
    isKey (discoverReplacements (loadRecs touchRecs ["app"]) ["app"]).1
        ("app", "0001") = true ∧
    ("app/migrations/0001.py", "T1") ∈
      (replaceSquashedDeps (loadRecs touchRecs ["app"])
        (discoverReplacements (loadRecs touchRecs ["app"]) ["app"]).1).writes ∧
    "app/migrations/0001.py updated" ∈
      (replaceSquashedDeps (loadRecs touchRecs ["app"])
        (discoverReplacements (loadRecs touchRecs ["app"]) ["app"]).1).msgs := by
  decide

theorem rewrite_foldl_writes (m : List (MigId × MigId)) (lr : List Rec) :
    ∀ acc : RWOut,
      (lr.foldl (fun acc r =>
        if acc.failed then acc
        else
          match recNewText m r with
          | Except.ok t =>
            { acc with writes := acc.writes ++ [(r.path, t)],
                       msgs := acc.msgs ++ [r.path ++ " updated"] }
          | Except.error _ => { acc with failed := true }) acc).failed = false →
      acc.failed = false ∧
        (lr.foldl (fun acc r =>
          if acc.failed then acc
          else
            match recNewText m r with
            | Except.ok t =>
              { acc with writes := acc.writes ++ [(r.path, t)],
                         msgs := acc.msgs ++ [r.path ++ " updated"] }
            | Except.error _ => { acc with failed := true }) acc).writes.map Prod.fst =
          acc.writes.map Prod.fst ++ lr.map Rec.path := by
  induction lr with
  | nil => intro acc h; exact ⟨h, by simp⟩
  | cons r lr ih =>
    intro acc h
    simp only [List.foldl_cons] at h ⊢
    by_cases hf : acc.failed = true
    · exfalso
      have hstep : (if acc.failed then acc
          else
            match recNewText m r with
            | Except.ok t =>
              { acc with writes := acc.writes ++ [(r.path, t)],
                         msgs := acc.msgs ++ [r.path ++ " updated"] }
            | Except.error _ => { acc with failed := true }) = acc := by
        rw [if_pos hf]
      rw [hstep] at h
      have hc := (ih acc h).1
      simp [hf] at hc
    · have hff : acc.failed = false := by simpa using hf
      cases ht : recNewText m r with
      | error e =>
        exfalso
        simp only [if_neg hf, ht] at h
        have := (ih _ h).1
        simp at this
      | ok t =>
        simp only [if_neg hf, ht] at h ⊢
        obtain ⟨-, hw⟩ := ih _ h
        refine ⟨hff, ?_⟩
        rw [hw]
        simp

theorem recNewText_no_key (m : List (MigId × MigId)) (es : List Entry) (s : String)
    (h : ∀ x : MigId, Entry.id x ∈ es → isKey m x = false) :
    es.foldl (fun acc e =>
      acc.bind (fun s =>
        match e with
        | Entry.junk => Except.ok s
        | Entry.id src =>
          match dlookup m src with
          | some v => pySub (subPattern src) (dstName v) s
          | none => Except.ok s)) (Except.ok s) = Except.ok s := by
  induction es with
  | nil => rfl
  | cons e es ih =>
    simp only [List.foldl_cons]
    have hstep : (Except.ok s).bind (fun s =>
        match e with
        | Entry.junk => Except.ok s
        | Entry.id src =>
          match dlookup m src with
          | some v => pySub (subPattern src) (dstName v) s
          | none => Except.ok (α := String) s) = Except.ok s := by
      cases e with
      | junk => rfl
      | id src =>
        have hk : isKey m src = false := h src (List.mem_cons_self _ _)
        have hl : dlookup m src = none := by
          unfold isKey at hk
          cases hx : dlookup m src with
          | none => rfl
          | some v => rw [hx] at hk; cases hk
        simp [Except.bind, hl]
    rw [hstep]
    exact ih (fun x hx => h x (List.mem_cons_of_mem _ hx))

/-- C6 amended: the rewrite pass processes every loaded record, replaced
ones included — when it completes, the back-written files are exactly the
files of all loaded records, in load order — and a record none of whose
tuple dependency entries is a key of the replacement map is written back
byte-identical. -/
theorem rewrite_processes_all_loaded (recs : List Rec) (appNames : List String) :
    ((replaceSquashedDeps (loadRecs recs appNames)
        (discoverReplacements (loadRecs recs appNames) appNames).1).failed = false →
      (replaceSquashedDeps (loadRecs recs appNames)
        (discoverReplacements (loadRecs recs appNames) appNames).1).writes.map Prod.fst =
        (loadRecs recs appNames).map Rec.path) ∧
    (∀ r ∈ loadRecs recs appNames,
      (∀ x : MigId, Entry.id x ∈ r.dependencies →
        isKey (discoverReplacements (loadRecs recs appNames) appNames).1 x = false) →
      recNewText (discoverReplacements (loadRecs recs appNames) appNames).1 r =
        Except.ok r.text) := by
  constructor
  · intro h
    have := rewrite_foldl_writes
      (discoverReplacements (loadRecs recs appNames) appNames).1
      (loadRecs recs appNames) ⟨[], [], false⟩ h
    simpa [replaceSquashedDeps] using this.2
  · intro r _ hdep
    exact recNewText_no_key _ r.dependencies r.text hdep

theorem rewrite_processes_all_loaded_witness :
    (replaceSquashedDeps (loadRecs touchRecs ["app"])
        (discoverReplacements (loadRecs touchRecs ["app"]) ["app"]).1).writes.map Prod.fst =
      ["app/migrations/0001.py", "app/migrations/0002_sq.py"] ∧
    recNewText (discoverReplacements (loadRecs touchRecs ["app"]) ["app"]).1
      ⟨("app", "0001"), [], [], "app/migrations/0001.py", "T1"⟩ = Except.ok "T1" := by
  have h := rewrite_processes_all_loaded touchRecs ["app"]
  constructor
  · exact (h.1 (by decide)).trans (by decide)
  · exact h.2 ⟨("app", "0001"), [], [], "app/migrations/0001.py", "T1"⟩ (by decide)
      (fun x hx => absurd hx (List.not_mem_nil _))

theorem mem_nadd (s : List MigId) (x y : MigId) :
    x ∈ nadd s y ↔ x = y ∨ x ∈ s := by
  unfold nadd
  by_cases hy : y ∈ s
  · rw [if_pos hy]
    constructor
    · exact Or.inr
    · rintro (rfl | hx)
      · exact hy
      · exact hx
  · rw [if_neg hy]
    simp [or_comm]

theorem eget_eadd (E : List (MigId × List MigId)) (s d x : MigId) :
    eget (eadd E s d) x =
      if s = x then (if d ∈ eget E s then eget E s else eget E s ++ [d])
      else eget E x := by
  induction E with
  | nil =>
    simp only [eadd, eget]
    by_cases hx : s = x <;> simp [hx, eget]
  | cons kv rest ih =>
    obtain ⟨k, ds⟩ := kv
    by_cases hk : k = s
    · subst hk
      simp only [eadd, if_pos rfl, eget]
      by_cases hx : k = x
      · subst hx
        simp
      · have : ¬ k = x := hx
        simp [this, eget]
    · simp only [eadd, if_neg hk, eget]
      by_cases hx : k = x
      · subst hx
        have : ¬ s = k := fun h => hk h.symm
        simp [this]
      · simp [hx, ih, eget]

theorem mem_eget_eadd (E : List (MigId × List MigId)) (s d x d' : MigId) :
    d' ∈ eget (eadd E s d) x ↔ (s = x ∧ d' = d) ∨ d' ∈ eget E x := by
  rw [eget_eadd]
  by_cases hx : s = x
  · subst hx
    rw [if_pos rfl]
    by_cases hd : d ∈ eget E s
    · rw [if_pos hd]
      constructor
      · exact Or.inr
      · rintro (⟨-, rfl⟩ | h)
        · exact hd
        · exact h
    · rw [if_neg hd]
      simp [or_comm]
  · rw [if_neg hx]
    constructor
    · exact Or.inr
    · rintro (⟨h, -⟩ | h)
      · exact absurd h hx
      · exact h

/-- The shape of every emitted substitution diagnostic: its resolved id is
the redirection result of its original id, it is only emitted when the two
differ, and its severity style is the error style exactly when the
dependent record is itself replaced. -/
def DiagOK (m : List (MigId × MigId)) (res : MigId → MigId) (dg : Diag) : Prop :=
  dg.resolved = res dg.original ∧ dg.resolved ≠ dg.original ∧
    dg.isError = isKey m dg.dst

theorem depStep_diags (appNames : List String) (m : List (MigId × MigId))
    (res : MigId → MigId) (rid : MigId) (acc : BuildOut) (e : Entry) (dg : Diag) :
    dg ∈ (depStep appNames m res rid acc e).diags ↔
      dg ∈ acc.diags ∨ ∃ src : MigId, e = Entry.id src ∧ res src ≠ src ∧
        dg = ⟨src, res src, rid, isKey m rid⟩ := by
  cases e with
  | junk => simp [depStep]
  | id src =>
    have hproj : (depStep appNames m res rid acc (Entry.id src)).diags =
        (if res src ≠ src then
          { acc with diags := acc.diags ++ [⟨src, res src, rid, isKey m rid⟩] }
        else acc).diags := by
      simp only [depStep]
      split <;> rfl
    rw [hproj]
    by_cases hne : res src ≠ src
    · rw [if_pos hne]
      simp only [List.mem_append, List.mem_singleton]
      constructor
      · rintro (hold | rfl)
        · exact Or.inl hold
        · exact Or.inr ⟨src, rfl, hne, rfl⟩
      · rintro (hold | ⟨src', heq, -, rfl⟩)
        · exact Or.inl hold
        · cases heq
          exact Or.inr rfl
    · rw [if_neg hne]
      constructor
      · exact Or.inl
      · rintro (hold | ⟨src', heq, hne', rfl⟩)
        · exact hold
        · cases heq
          exact absurd hne' hne

theorem depsFold_diags (appNames : List String) (m : List (MigId × MigId))
    (res : MigId → MigId) (rid : MigId) (es : List Entry) (dg : Diag) :
    ∀ acc : BuildOut,
      (dg ∈ (es.foldl (depStep appNames m res rid) acc).diags ↔
        dg ∈ acc.diags ∨ ∃ src : MigId, Entry.id src ∈ es ∧ res src ≠ src ∧
          dg = ⟨src, res src, rid, isKey m rid⟩) := by
  induction es with
  | nil => simp
  | cons e es ih =>
    intro acc
    simp only [List.foldl_cons]
    rw [ih, depStep_diags]
    constructor
    · rintro ((hold | ⟨src, rfl, hne, rfl⟩) | ⟨src, hsrc, hne, rfl⟩)
      · exact Or.inl hold
      · exact Or.inr ⟨src, List.mem_cons_self _ _, hne, rfl⟩
      · exact Or.inr ⟨src, List.mem_cons_of_mem _ hsrc, hne, rfl⟩
    · rintro (hold | ⟨src, hsrc, hne, rfl⟩)
      · exact Or.inl (Or.inl hold)
      · rcases List.mem_cons.mp hsrc with heq | hsrc'
        · exact Or.inl (Or.inr ⟨src, heq.symm, hne, rfl⟩)
        · exact Or.inr ⟨src, hsrc', hne, rfl⟩

theorem buildStep_diags (appNames : List String) (m : List (MigId × MigId))
    (res : MigId → MigId) (acc : BuildOut) (r : Rec) (dg : Diag) :
    dg ∈ (buildStep appNames m res acc r).diags ↔
      dg ∈ acc.diags ∨ (r.id.1 ∈ appNames ∧
        ∃ src : MigId, Entry.id src ∈ r.dependencies ∧ res src ≠ src ∧
          dg = ⟨src, res src, r.id, isKey m r.id⟩) := by
  unfold buildStep
  by_cases hgrp : r.id.1 ∈ appNames
  · rw [if_pos hgrp]
    have hproj : ({ r.dependencies.foldl (depStep appNames m res r.id) acc with
        nodes := nadd (r.dependencies.foldl (depStep appNames m res r.id) acc).nodes r.id }).diags =
        (r.dependencies.foldl (depStep appNames m res r.id) acc).diags := rfl
    rw [hproj, depsFold_diags]
    constructor
    · rintro (hold | hnew)
      · exact Or.inl hold
      · exact Or.inr ⟨hgrp, hnew⟩
    · rintro (hold | ⟨-, hnew⟩)
      · exact Or.inl hold
      · exact Or.inr hnew
  · rw [if_neg hgrp]
    constructor
    · exact Or.inl
    · rintro (hold | ⟨hg, -⟩)
      · exact hold
      · exact absurd hg hgrp

theorem buildGraph_diags (recs : List Rec) (appNames : List String)
    (m : List (MigId × MigId)) (res : MigId → MigId) (dg : Diag) :
    dg ∈ (buildGraph recs appNames m res).diags ↔
      ∃ r : Rec, r ∈ recs ∧ r.id.1 ∈ appNames ∧
        ∃ src : MigId, Entry.id src ∈ r.dependencies ∧ res src ≠ src ∧
          dg = ⟨src, res src, r.id, isKey m r.id⟩ := by
  unfold buildGraph
  suffices h : ∀ acc : BuildOut,
      dg ∈ (recs.foldl (buildStep appNames m res) acc).diags ↔
        dg ∈ acc.diags ∨ ∃ r : Rec, r ∈ recs ∧ r.id.1 ∈ appNames ∧
          ∃ src : MigId, Entry.id src ∈ r.dependencies ∧ res src ≠ src ∧
            dg = ⟨src, res src, r.id, isKey m r.id⟩ by
    rw [h ⟨[], [], []⟩]
    simp
  induction recs with
  | nil => simp
  | cons r recs ih =>
    intro acc
    simp only [List.foldl_cons]
    rw [ih, buildStep_diags]
    constructor
    · rintro ((hold | ⟨hg, src, hsrc, hne, rfl⟩) | ⟨r0, hr0, hg0, hrest⟩)
      · exact Or.inl hold
      · exact Or.inr ⟨r, List.mem_cons_self _ _, hg, src, hsrc, hne, rfl⟩
      · exact Or.inr ⟨r0, List.mem_cons_of_mem _ hr0, hg0, hrest⟩
    · rintro (hold | ⟨r0, hr0, hg0, hrest⟩)
      · exact Or.inl (Or.inl hold)
      · rcases List.mem_cons.mp hr0 with rfl | hr0'
        · exact Or.inl (Or.inr ⟨hg0, hrest⟩)
        · exact Or.inr ⟨r0, hr0', hg0, hrest⟩

/-- C9: over the loaded records, a substitution diagnostic is emitted for a
dependency exactly when the redirected id differs from the declared id, and
its severity is the error style exactly when the dependent record is itself
a replaced (squashed) record; every emitted diagnostic is of this shape. -/
theorem diagnostics_characterization (recs : List Rec) (appNames : List String)
    (res : MigId → MigId) :
    (∀ dg ∈ (buildGraph (loadRecs recs appNames) appNames
        (discoverReplacements (loadRecs recs appNames) appNames).1 res).diags,
      DiagOK (discoverReplacements (loadRecs recs appNames) appNames).1 res dg) ∧
    (∀ r ∈ loadRecs recs appNames, ∀ src : MigId,
      Entry.id src ∈ r.dependencies → res src ≠ src →
      (⟨src, res src, r.id,
          isKey (discoverReplacements (loadRecs recs appNames) appNames).1 r.id⟩ : Diag) ∈
        (buildGraph (loadRecs recs appNames) appNames
          (discoverReplacements (loadRecs recs appNames) appNames).1 res).diags) := by
  constructor
  · intro dg hdg
    rcases (buildGraph_diags _ _ _ _ _).mp hdg with ⟨r, -, -, src, -, hne, rfl⟩
    exact ⟨rfl, hne, rfl⟩
  · intro r hr src hsrc hne
    have hgrp : r.id.1 ∈ appNames := by
      have := List.mem_filter.mp hr
      simpa using this.2
    exact (buildGraph_diags _ _ _ _ _).mpr ⟨r, hr, hgrp, src, hsrc, hne, rfl⟩

theorem diagnostics_characterization_witness :
    (⟨("app", "0002"), ("app", "0003_squashed"), ("app", "0004"), false⟩ : Diag) ∈
      (buildGraph (loadRecs squashRecs ["app"]) ["app"]
        (discoverReplacements (loadRecs squashRecs ["app"]) ["app"]).1
        (fun x => (resolveFuel
          (discoverReplacements (loadRecs squashRecs ["app"]) ["app"]).1
          true 3 x).getD x)).diags := by
  have h := (diagnostics_characterization squashRecs ["app"]
    (fun x => (resolveFuel
      (discoverReplacements (loadRecs squashRecs ["app"]) ["app"]).1
      true 3 x).getD x)).2
  exact h ⟨("app", "0004"), [Entry.id ("app", "0002")], [], "app/migrations/0004.py", "T4"⟩
    (by decide) ("app", "0002") (by decide) (by decide)

theorem depStep_edges_eq (appNames : List String) (m : List (MigId × MigId))
    (res : MigId → MigId) (rid : MigId) (acc : BuildOut) (src : MigId) :
    (depStep appNames m res rid acc (Entry.id src)).edges =
      if (res src).1 ∈ appNames then eadd acc.edges (res src) rid else acc.edges := by
  simp only [depStep]
  split <;> split <;> rfl

theorem depStep_nodes_eq (appNames : List String) (m : List (MigId × MigId))
    (res : MigId → MigId) (rid : MigId) (acc : BuildOut) (src : MigId) :
    (depStep appNames m res rid acc (Entry.id src)).nodes =
      if (res src).1 ∈ appNames then nadd acc.nodes (res src) else acc.nodes := by
  simp only [depStep]
  split <;> split <;> rfl

theorem depsFold_eget (appNames : List String) (m : List (MigId × MigId))
    (res : MigId → MigId) (rid : MigId) (es : List Entry) (x d' : MigId) :
    ∀ acc : BuildOut,
      (d' ∈ eget (es.foldl (depStep appNames m res rid) acc).edges x ↔
        d' ∈ eget acc.edges x ∨ ∃ src : MigId, Entry.id src ∈ es ∧
          (res src).1 ∈ appNames ∧ x = res src ∧ d' = rid) := by
  induction es with
  | nil => simp
  | cons e es ih =>
    intro acc
    simp only [List.foldl_cons]
    rw [ih]
    have hstep : d' ∈ eget (depStep appNames m res rid acc e).edges x ↔
        d' ∈ eget acc.edges x ∨ ∃ src : MigId, e = Entry.id src ∧
          (res src).1 ∈ appNames ∧ x = res src ∧ d' = rid := by
      cases e with
      | junk => simp [depStep]
      | id src =>
        rw [depStep_edges_eq]
        by_cases hg : (res src).1 ∈ appNames
        · rw [if_pos hg, mem_eget_eadd]
          constructor
          · rintro (⟨hx, rfl⟩ | hold)
            · exact Or.inr ⟨src, rfl, hg, hx.symm, rfl⟩
            · exact Or.inl hold
          · rintro (hold | ⟨src', heq, -, hx, rfl⟩)
            · exact Or.inr hold
            · cases heq
              exact Or.inl ⟨hx.symm, rfl⟩
        · rw [if_neg hg]
          constructor
          · exact Or.inl
          · rintro (hold | ⟨src', heq, hg', -, -⟩)
            · exact hold
            · cases heq
              exact absurd hg' hg
    rw [hstep]
    constructor
    · rintro ((hold | ⟨src, rfl, hg, hx, rfl⟩) | ⟨src, hsrc, hg, hx, rfl⟩)
      · exact Or.inl hold
      · exact Or.inr ⟨src, List.mem_cons_self _ _, hg, hx, rfl⟩
      · exact Or.inr ⟨src, List.mem_cons_of_mem _ hsrc, hg, hx, rfl⟩
    · rintro (hold | ⟨src, hsrc, hg, hx, rfl⟩)
      · exact Or.inl (Or.inl hold)
      · rcases List.mem_cons.mp hsrc with heq | hsrc'
        · exact Or.inl (Or.inr ⟨src, heq.symm, hg, hx, rfl⟩)
        · exact Or.inr ⟨src, hsrc', hg, hx, rfl⟩

theorem depsFold_nodes (appNames : List String) (m : List (MigId × MigId))
    (res : MigId → MigId) (rid : MigId) (es : List Entry) (x : MigId) :
    ∀ acc : BuildOut,
      (x ∈ (es.foldl (depStep appNames m res rid) acc).nodes ↔
        x ∈ acc.nodes ∨ ∃ src : MigId, Entry.id src ∈ es ∧
          (res src).1 ∈ appNames ∧ x = res src) := by
  induction es with
  | nil => simp
  | cons e es ih =>
    intro acc
    simp only [List.foldl_cons]
    rw [ih]
    have hstep : x ∈ (depStep appNames m res rid acc e).nodes ↔
        x ∈ acc.nodes ∨ ∃ src : MigId, e = Entry.id src ∧
          (res src).1 ∈ appNames ∧ x = res src := by
      cases e with
      | junk => simp [depStep]
      | id src =>
        rw [depStep_nodes_eq]
        by_cases hg : (res src).1 ∈ appNames
        · rw [if_pos hg, mem_nadd]
          constructor
          · rintro (rfl | hold)
            · exact Or.inr ⟨src, rfl, hg, rfl⟩
            · exact Or.inl hold
          · rintro (hold | ⟨src', heq, -, rfl⟩)
            · exact Or.inr hold
            · cases heq
              exact Or.inl rfl
        · rw [if_neg hg]
          constructor
          · exact Or.inl
          · rintro (hold | ⟨src', heq, hg', -⟩)
            · exact hold
            · cases heq
              exact absurd hg' hg
    rw [hstep]
    constructor
    · rintro ((hold | ⟨src, rfl, hg, rfl⟩) | ⟨src, hsrc, hg, rfl⟩)
      · exact Or.inl hold
      · exact Or.inr ⟨src, List.mem_cons_self _ _, hg, rfl⟩
      · exact Or.inr ⟨src, List.mem_cons_of_mem _ hsrc, hg, rfl⟩
    · rintro (hold | ⟨src, hsrc, hg, rfl⟩)
      · exact Or.inl (Or.inl hold)
      · rcases List.mem_cons.mp hsrc with heq | hsrc'
        · exact Or.inl (Or.inr ⟨src, heq.symm, hg, rfl⟩)
        · exact Or.inr ⟨src, hsrc', hg, rfl⟩

theorem buildStep_eget (appNames : List String) (m : List (MigId × MigId))
    (res : MigId → MigId) (acc : BuildOut) (r : Rec) (x d' : MigId) :
    d' ∈ eget (buildStep appNames m res acc r).edges x ↔
      d' ∈ eget acc.edges x ∨ (r.id.1 ∈ appNames ∧
        ∃ src : MigId, Entry.id src ∈ r.dependencies ∧
          (res src).1 ∈ appNames ∧ x = res src ∧ d' = r.id) := by
  unfold buildStep
  by_cases hgrp : r.id.1 ∈ appNames
  · rw [if_pos hgrp]
    have hproj : ({ r.dependencies.foldl (depStep appNames m res r.id) acc with
        nodes := nadd (r.dependencies.foldl (depStep appNames m res r.id) acc).nodes r.id }).edges =
        (r.dependencies.foldl (depStep appNames m res r.id) acc).edges := rfl
    rw [hproj, depsFold_eget]
    constructor
    · rintro (hold | hnew)
      · exact Or.inl hold
      · exact Or.inr ⟨hgrp, hnew⟩
    · rintro (hold | ⟨-, hnew⟩)
      · exact Or.inl hold
      · exact Or.inr hnew
  · rw [if_neg hgrp]
    constructor
    · exact Or.inl
    · rintro (hold | ⟨hg, -⟩)
      · exact hold
      · exact absurd hg hgrp

theorem buildStep_nodes (appNames : List String) (m : List (MigId × MigId))
    (res : MigId → MigId) (acc : BuildOut) (r : Rec) (x : MigId) :
    x ∈ (buildStep appNames m res acc r).nodes ↔
      x ∈ acc.nodes ∨ (r.id.1 ∈ appNames ∧ (x = r.id ∨
        ∃ src : MigId, Entry.id src ∈ r.dependencies ∧
          (res src).1 ∈ appNames ∧ x = res src)) := by
  unfold buildStep
  by_cases hgrp : r.id.1 ∈ appNames
  · rw [if_pos hgrp]
    have hproj : ({ r.dependencies.foldl (depStep appNames m res r.id) acc with
        nodes := nadd (r.dependencies.foldl (depStep appNames m res r.id) acc).nodes r.id }).nodes =
        nadd (r.dependencies.foldl (depStep appNames m res r.id) acc).nodes r.id := rfl
    rw [hproj, mem_nadd, depsFold_nodes]
    constructor
    · rintro (rfl | hold | hnew)
      · exact Or.inr ⟨hgrp, Or.inl rfl⟩
      · exact Or.inl hold
      · exact Or.inr ⟨hgrp, Or.inr hnew⟩
    · rintro (hold | ⟨-, rfl | hnew⟩)
      · exact Or.inr (Or.inl hold)
      · exact Or.inl rfl
      · exact Or.inr (Or.inr hnew)
  · rw [if_neg hgrp]
    constructor
    · exact Or.inl
    · rintro (hold | ⟨hg, -⟩)
      · exact hold
      · exact absurd hg hgrp

theorem buildGraph_eget (recs : List Rec) (appNames : List String)
    (m : List (MigId × MigId)) (res : MigId → MigId) (x d' : MigId) :
    d' ∈ eget (buildGraph recs appNames m res).edges x ↔
      ∃ r : Rec, r ∈ recs ∧ r.id.1 ∈ appNames ∧
        ∃ src : MigId, Entry.id src ∈ r.dependencies ∧
          (res src).1 ∈ appNames ∧ x = res src ∧ d' = r.id := by
  unfold buildGraph
  suffices h : ∀ acc : BuildOut,
      d' ∈ eget (recs.foldl (buildStep appNames m res) acc).edges x ↔
        d' ∈ eget acc.edges x ∨ ∃ r : Rec, r ∈ recs ∧ r.id.1 ∈ appNames ∧
          ∃ src : MigId, Entry.id src ∈ r.dependencies ∧
            (res src).1 ∈ appNames ∧ x = res src ∧ d' = r.id by
    rw [h ⟨[], [], []⟩]
    simp [eget]
  induction recs with
  | nil => simp
  | cons r recs ih =>
    intro acc
    simp only [List.foldl_cons]
    rw [ih, buildStep_eget]
    constructor
    · rintro ((hold | ⟨hg, hnew⟩) | ⟨r0, hr0, hg0, hrest⟩)
      · exact Or.inl hold
      · exact Or.inr ⟨r, List.mem_cons_self _ _, hg, hnew⟩
      · exact Or.inr ⟨r0, List.mem_cons_of_mem _ hr0, hg0, hrest⟩
    · rintro (hold | ⟨r0, hr0, hg0, hrest⟩)
      · exact Or.inl (Or.inl hold)
      · rcases List.mem_cons.mp hr0 with rfl | hr0'
        · exact Or.inl (Or.inr ⟨hg0, hrest⟩)
        · exact Or.inr ⟨r0, hr0', hg0, hrest⟩

theorem buildGraph_nodes (recs : List Rec) (appNames : List String)
    (m : List (MigId × MigId)) (res : MigId → MigId) (x : MigId) :
    x ∈ (buildGraph recs appNames m res).nodes ↔
      ∃ r : Rec, r ∈ recs ∧ r.id.1 ∈ appNames ∧ (x = r.id ∨
        ∃ src : MigId, Entry.id src ∈ r.dependencies ∧
          (res src).1 ∈ appNames ∧ x = res src) := by
  unfold buildGraph
  suffices h : ∀ acc : BuildOut,
      x ∈ (recs.foldl (buildStep appNames m res) acc).nodes ↔
        x ∈ acc.nodes ∨ ∃ r : Rec, r ∈ recs ∧ r.id.1 ∈ appNames ∧ (x = r.id ∨
          ∃ src : MigId, Entry.id src ∈ r.dependencies ∧
            (res src).1 ∈ appNames ∧ x = res src) by
    rw [h ⟨[], [], []⟩]
    simp
  induction recs with
  | nil => simp
  | cons r recs ih =>
    intro acc
    simp only [List.foldl_cons]
    rw [ih, buildStep_nodes]
    constructor
    · rintro ((hold | ⟨hg, hnew⟩) | ⟨r0, hr0, hg0, hrest⟩)
      · exact Or.inl hold
      · exact Or.inr ⟨r, List.mem_cons_self _ _, hg, hnew⟩
      · exact Or.inr ⟨r0, List.mem_cons_of_mem _ hr0, hg0, hrest⟩
    · rintro (hold | ⟨r0, hr0, hg0, hrest⟩)
      · exact Or.inl (Or.inl hold)
      · rcases List.mem_cons.mp hr0 with rfl | hr0'
        · exact Or.inl (Or.inr ⟨hg0, hrest⟩)
        · exact Or.inr ⟨r0, hr0', hg0, hrest⟩

/-- C4: redirection is transitive.  When the replacement map the command
builds contains the full chain `A` replaced-by `B` replaced-by `C` (with
`C` itself unreplaced, `A`, `B`, `C` distinct), any terminating run of the
redirection loop from `A` with replaced nodes hidden ends at `C`, and for
every loaded record declaring a dependency on `A`, with `C`'s group
configured, the edge registered for that dependency has source `C` — not
`A` or `B`. -/
theorem redirection_transitive (recs : List Rec) (appNames : List String)
    (res : MigId → MigId) (A B C : MigId)
    (hAB : dlookup (discoverReplacements (loadRecs recs appNames) appNames).1 A = some B)
    (hBC : dlookup (discoverReplacements (loadRecs recs appNames) appNames).1 B = some C)
    (hC : dlookup (discoverReplacements (loadRecs recs appNames) appNames).1 C = none)
    (_hABne : A ≠ B) (hBCne : B ≠ C) (hACne : A ≠ C)
    (hres : Resolves (discoverReplacements (loadRecs recs appNames) appNames).1
      true A (res A)) :
    res A = C ∧ C ≠ A ∧ C ≠ B ∧
      ∀ r ∈ loadRecs recs appNames, Entry.id A ∈ r.dependencies →
        C.1 ∈ appNames →
        r.id ∈ eget (buildGraph (loadRecs recs appNames) appNames
          (discoverReplacements (loadRecs recs appNames) appNames).1 res).edges C := by
  have hAC : Resolves (discoverReplacements (loadRecs recs appNames) appNames).1
      true A C :=
    Resolves.step A B C rfl hAB
      (Resolves.step B C C rfl hBC (Resolves.exit C (Or.inr hC)))
  have hresA : res A = C := Resolves.det hres hAC
  refine ⟨hresA, Ne.symm hACne, Ne.symm hBCne, ?_⟩
  intro r hr hdep hCgrp
  have hgrp : r.id.1 ∈ appNames := by
    have := List.mem_filter.mp hr
    simpa using this.2
  refine (buildGraph_eget _ _ _ _ _ _).mpr ⟨r, hr, hgrp, A, hdep, ?_, hresA.symm, rfl⟩
  rw [hresA]
  exact hCgrp

/-- C4 witness input: `b` replaces `a`, `c` replaces `b`, and `d` depends
on `a`. -/
def chainRecs : List Rec :=
  [⟨("app", "b"), [], [Entry.id ("app", "a")], "app/migrations/b.py", "B"⟩,
   ⟨("app", "c"), [], [Entry.id ("app", "b")], "app/migrations/c.py", "C"⟩,
   ⟨("app", "d"), [Entry.id ("app", "a")], [], "app/migrations/d.py", "D"⟩]

theorem redirection_transitive_witness :
    (fun x => (resolveFuel
      (discoverReplacements (loadRecs chainRecs ["app"]) ["app"]).1
      true 2 x).getD x) ("app", "a") = ("app", "c") ∧
    ("app", "d") ∈ eget (buildGraph (loadRecs chainRecs ["app"]) ["app"]
      (discoverReplacements (loadRecs chainRecs ["app"]) ["app"]).1
      (fun x => (resolveFuel
        (discoverReplacements (loadRecs chainRecs ["app"]) ["app"]).1
        true 2 x).getD x)).edges ("app", "c") := by
  have h := redirection_transitive chainRecs ["app"]
    (fun x => (resolveFuel
      (discoverReplacements (loadRecs chainRecs ["app"]) ["app"]).1
      true 2 x).getD x)
    ("app", "a") ("app", "b") ("app", "c")
    (by decide) (by decide) (by decide) (by decide) (by decide) (by decide)
    (resolveFuel_sound (n := 2) (by decide))
  exact ⟨h.1, h.2.2.2 ⟨("app", "d"), [Entry.id ("app", "a")], [],
    "app/migrations/d.py", "D"⟩ (by decide) (by decide) (by decide)⟩

/-- Whether an entry is a 2-tuple (`isinstance(x, tuple)` in the source). -/
def isIdEntry : Entry → Bool
  | Entry.id _ => true
  | Entry.junk => false

/-- The same record with all non-tuple entries removed from its
`dependencies` and `replaces` lists. -/
def eraseJunk (r : Rec) : Rec :=
  { r with dependencies := r.dependencies.filter isIdEntry,
           replaces := r.replaces.filter isIdEntry }

theorem replFold_filter (appNames : List String) (rid : MigId) :
    ∀ (es : List Entry) (m : List (MigId × MigId)),
      (es.filter isIdEntry).foldl (fun m e =>
        match e with
        | Entry.id rep => if rep.1 ∈ appNames then dinsert m rep rid else m
        | Entry.junk => m) m =
      es.foldl (fun m e =>
        match e with
        | Entry.id rep => if rep.1 ∈ appNames then dinsert m rep rid else m
        | Entry.junk => m) m := by
  intro es
  induction es with
  | nil => intro m; rfl
  | cons e es ih =>
    intro m
    cases e with
    | id rep =>
      simp only [List.filter_cons, isIdEntry, if_true, List.foldl_cons]
      exact ih _
    | junk =>
      simp only [List.filter_cons, isIdEntry, Bool.false_eq_true, if_false, List.foldl_cons]
      exact ih m

theorem discover_fst (recs : List Rec) (appNames : List String) :
    ∀ acc : List (MigId × MigId) × List MigId,
      (recs.foldl (fun acc r =>
        let sq := if r.replaces ≠ [] then nadd acc.2 r.id else acc.2
        let m := r.replaces.foldl (fun m e =>
          match e with
          | Entry.id rep => if rep.1 ∈ appNames then dinsert m rep r.id else m
          | Entry.junk => m) acc.1
        (m, sq)) acc).1 =
      recs.foldl (fun m r => r.replaces.foldl (fun m e =>
        match e with
        | Entry.id rep => if rep.1 ∈ appNames then dinsert m rep r.id else m
        | Entry.junk => m) m) acc.1 := by
  induction recs with
  | nil => intro acc; rfl
  | cons r recs ih =>
    intro acc
    simp only [List.foldl_cons]
    exact ih _

theorem depsFold_filter (appNames : List String) (m : List (MigId × MigId))
    (res : MigId → MigId) (rid : MigId) :
    ∀ (es : List Entry) (acc : BuildOut),
      (es.filter isIdEntry).foldl (depStep appNames m res rid) acc =
        es.foldl (depStep appNames m res rid) acc := by
  intro es
  induction es with
  | nil => intro acc; rfl
  | cons e es ih =>
    intro acc
    cases e with
    | id src =>
      simp only [List.filter_cons, isIdEntry, if_true, List.foldl_cons]
      exact ih _
    | junk =>
      simp only [List.filter_cons, isIdEntry, Bool.false_eq_true, if_false, List.foldl_cons]
      exact ih acc

theorem recNewText_eraseJunk (m : List (MigId × MigId)) (r : Rec) :
    recNewText m (eraseJunk r) = recNewText m r := by
  unfold recNewText eraseJunk
  simp only []
  generalize (Except.ok r.text : Except String String) = acc
  induction r.dependencies generalizing acc with
  | nil => rfl
  | cons e es ih =>
    cases e with
    | id src =>
      simp only [List.filter_cons, isIdEntry, if_true, List.foldl_cons]
      exact ih _
    | junk =>
      simp only [List.filter_cons, isIdEntry, Bool.false_eq_true, if_false, List.foldl_cons]
      have hbind : acc.bind (fun s => (Except.ok s : Except String String)) = acc := by
        cases acc <;> rfl
      rw [hbind]
      exact ih acc

theorem loadRecs_eraseJunk (recs : List Rec) (appNames : List String) :
    loadRecs (recs.map eraseJunk) appNames = (loadRecs recs appNames).map eraseJunk := by
  unfold loadRecs
  induction recs with
  | nil => rfl
  | cons r recs ih =>
    simp only [List.map_cons, List.filter_cons]
    by_cases hg : r.id.1 ∈ appNames
    · have hg' : ((eraseJunk r).id.1 ∈ appNames) = (r.id.1 ∈ appNames) := rfl
      simp only [hg', hg]
      simp [ih]
    · have hg' : ((eraseJunk r).id.1 ∈ appNames) = (r.id.1 ∈ appNames) := rfl
      simp only [hg', hg]
      simp [ih]

theorem buildStep_eraseJunk (appNames : List String) (m : List (MigId × MigId))
    (res : MigId → MigId) (acc : BuildOut) (r : Rec) :
    buildStep appNames m res acc (eraseJunk r) = buildStep appNames m res acc r := by
  unfold buildStep
  have hid : (eraseJunk r).id = r.id := rfl
  rw [hid]
  by_cases hg : r.id.1 ∈ appNames
  · rw [if_pos hg, if_pos hg]
    have hdeps : (eraseJunk r).dependencies = r.dependencies.filter isIdEntry := rfl
    rw [hdeps, depsFold_filter]
  · rw [if_neg hg, if_neg hg]

theorem discoverMap_eraseJunk (recs : List Rec) (appNames : List String) :
    (discoverReplacements (recs.map eraseJunk) appNames).1 =
      (discoverReplacements recs appNames).1 := by
  unfold discoverReplacements
  rw [discover_fst, discover_fst]
  suffices h : ∀ acc : List (MigId × MigId),
      (recs.map eraseJunk).foldl (fun m r => r.replaces.foldl (fun m e =>
        match e with
        | Entry.id rep => if rep.1 ∈ appNames then dinsert m rep r.id else m
        | Entry.junk => m) m) acc =
      recs.foldl (fun m r => r.replaces.foldl (fun m e =>
        match e with
        | Entry.id rep => if rep.1 ∈ appNames then dinsert m rep r.id else m
        | Entry.junk => m) m) acc from h []
  induction recs with
  | nil => intro acc; rfl
  | cons r recs ih =>
    intro acc
    simp only [List.map_cons, List.foldl_cons]
    have hstep : (eraseJunk r).replaces.foldl (fun m e =>
        match e with
        | Entry.id rep => if rep.1 ∈ appNames then dinsert m rep (eraseJunk r).id else m
        | Entry.junk => m) acc =
        r.replaces.foldl (fun m e =>
        match e with
        | Entry.id rep => if rep.1 ∈ appNames then dinsert m rep r.id else m
        | Entry.junk => m) acc := by
      have hrepl : (eraseJunk r).replaces = r.replaces.filter isIdEntry := rfl
      have hid : (eraseJunk r).id = r.id := rfl
      rw [hrepl, hid, replFold_filter]
    rw [hstep]
    exact ih _

/-- C10: non-tuple entries in `dependencies` or `replaces` are inert
throughout: removing them from every record leaves the loaded list (up to
the same removal), the replacement map, the entire graph-building output
(nodes, edges and diagnostics), the rewrite pass (reads, substitutions,
writes and notices) and the deletion pass unchanged. -/
theorem junk_entries_inert (recs : List Rec) (appNames : List String)
    (m : List (MigId × MigId)) (res : MigId → MigId) :
    loadRecs (recs.map eraseJunk) appNames = (loadRecs recs appNames).map eraseJunk ∧
    (discoverReplacements (recs.map eraseJunk) appNames).1 =
      (discoverReplacements recs appNames).1 ∧
    buildGraph (recs.map eraseJunk) appNames m res = buildGraph recs appNames m res ∧
    replaceSquashedDeps (recs.map eraseJunk) m = replaceSquashedDeps recs m ∧
    removeSquashedRecords (recs.map eraseJunk) m = removeSquashedRecords recs m := by
  refine ⟨loadRecs_eraseJunk recs appNames, discoverMap_eraseJunk recs appNames, ?_, ?_, ?_⟩
  · unfold buildGraph
    suffices h : ∀ acc : BuildOut,
        (recs.map eraseJunk).foldl (buildStep appNames m res) acc =
          recs.foldl (buildStep appNames m res) acc from h _
    induction recs with
    | nil => intro acc; rfl
    | cons r recs ih =>
      intro acc
      simp only [List.map_cons, List.foldl_cons, buildStep_eraseJunk]
      exact ih _
  · unfold replaceSquashedDeps
    suffices h : ∀ acc : RWOut,
        (recs.map eraseJunk).foldl (fun acc r =>
          if acc.failed then acc
          else
            match recNewText m r with
            | Except.ok t =>
              { acc with writes := acc.writes ++ [(r.path, t)],
                         msgs := acc.msgs ++ [r.path ++ " updated"] }
            | Except.error _ => { acc with failed := true }) acc =
        recs.foldl (fun acc r =>
          if acc.failed then acc
          else
            match recNewText m r with
            | Except.ok t =>
              { acc with writes := acc.writes ++ [(r.path, t)],
                         msgs := acc.msgs ++ [r.path ++ " updated"] }
            | Except.error _ => { acc with failed := true }) acc from h _
    induction recs with
    | nil => intro acc; rfl
    | cons r recs ih =>
      intro acc
      simp only [List.map_cons, List.foldl_cons, recNewText_eraseJunk]
      have hpath : (eraseJunk r).path = r.path := rfl
      rw [hpath]
      exact ih _
  · unfold removeSquashedRecords
    suffices h : ∀ acc : List String,
        (recs.map eraseJunk).foldl (fun acc r =>
          if isKey m r.id then acc ++ [r.path] else acc) acc =
        recs.foldl (fun acc r =>
          if isKey m r.id then acc ++ [r.path] else acc) acc from h _
    induction recs with
    | nil => intro acc; rfl
    | cons r recs ih =>
      intro acc
      simp only [List.map_cons, List.foldl_cons]
      have hstep : (if isKey m (eraseJunk r).id then acc ++ [(eraseJunk r).path] else acc) =
          (if isKey m r.id then acc ++ [r.path] else acc) := rfl
      rw [hstep]
      exact ih _

theorem mem_insertLe {α : Type} (le : α → α → Bool) (x y : α) (l : List α) :
    y ∈ insertLe le x l ↔ y = x ∨ y ∈ l := by
  induction l with
  | nil => simp [insertLe]
  | cons z zs ih =>
    unfold insertLe
    by_cases hle : le x z = true
    · simp [hle]
    · simp only [if_neg hle, List.mem_cons, ih]
      tauto

theorem mem_isort {α : Type} (le : α → α → Bool) (y : α) (l : List α) :
    y ∈ isort le l ↔ y ∈ l := by
  induction l with
  | nil => simp [isort]
  | cons z zs ih =>
    unfold isort
    rw [mem_insertLe, ih]
    simp

theorem nodeLines_mem_iff (nodes : List MigId) (edges : List (MigId × List MigId))
    (m : List (MigId × MigId)) (sq : List MigId) (hide : Bool) (x : MigId)
    (c l : String) :
    GLine.node x c l ∈ nodeLines nodes edges m sq hide ↔
      x ∈ nodes ∧ (isKey m x && hide) = false ∧
        c = (colorLabel x (eget edges x) m sq).1 ∧
        l = (colorLabel x (eget edges x) m sq).2 := by
  unfold nodeLines
  rw [List.mem_filterMap]
  constructor
  · rintro ⟨s, hs, hf⟩
    split at hf
    · cases hf
    · rename_i hcond
      rw [Option.some_inj] at hf
      cases hf
      refine ⟨(mem_isort _ _ _).mp hs, ?_, rfl, rfl⟩
      simpa using hcond
  · rintro ⟨hx, hcond, rfl, rfl⟩
    refine ⟨x, (mem_isort _ _ _).mpr hx, ?_⟩
    rw [if_neg (by simp [hcond])]
  

theorem extraEdgeLines_mem_iff (m : List (MigId × MigId)) (hide : Bool)
    (s d : MigId) :
    GLine.edge s d ∈ extraEdgeLines m hide ↔ hide = false ∧ (s, d) ∈ m := by
  unfold extraEdgeLines
  cases hide with
  | true => simp
  | false =>
    simp only [if_neg (by simp : ¬ (false : Bool) = true), List.mem_map]
    constructor
    · rintro ⟨kv, hkv, heq⟩
      obtain ⟨k, v⟩ := kv
      rw [GLine.edge.injEq] at heq
      obtain ⟨rfl, rfl⟩ := heq
      exact ⟨trivial, hkv⟩
    · rintro ⟨-, hmem⟩
      exact ⟨(s, d), hmem, rfl⟩

theorem regularEdgeLines_mem_iff (edges : List (MigId × List MigId))
    (m : List (MigId × MigId)) (hide : Bool) (s d : MigId) :
    GLine.edge s d ∈ regularEdgeLines edges m hide ↔
      ∃ ds : List MigId, (s, ds) ∈ edges ∧ d ∈ ds ∧
        (isKey m s && hide) = false ∧ (isKey m d && hide) = false := by
  unfold regularEdgeLines
  have hfold : ∀ L : List (MigId × List MigId),
      GLine.edge s d ∈ L.foldr (fun sd acc =>
        if isKey m sd.1 && hide then acc
        else ((isort idLe sd.2).filterMap (fun d' =>
          if isKey m d' && hide then none else some (GLine.edge sd.1 d'))) ++ acc) [] ↔
      ∃ sd : MigId × List MigId, sd ∈ L ∧ (isKey m sd.1 && hide) = false ∧
        GLine.edge s d ∈ (isort idLe sd.2).filterMap (fun d' =>
          if isKey m d' && hide then none else some (GLine.edge sd.1 d')) := by
    intro L
    induction L with
    | nil => simp
    | cons sd L ih =>
      simp only [List.foldr_cons]
      by_cases hc : (isKey m sd.1 && hide) = true
      · rw [if_pos hc, ih]
        constructor
        · rintro ⟨sd0, h0, hcond0, hmem0⟩
          exact ⟨sd0, List.mem_cons_of_mem _ h0, hcond0, hmem0⟩
        · rintro ⟨sd0, h0, hcond0, hmem0⟩
          rcases List.mem_cons.mp h0 with rfl | h0'
          · rw [hcond0] at hc; cases hc
          · exact ⟨sd0, h0', hcond0, hmem0⟩
      · rw [if_neg hc, List.mem_append, ih]
        constructor
        · rintro (hin | ⟨sd0, h0, hcond0, hmem0⟩)
          · exact ⟨sd, List.mem_cons_self _ _, by simpa using hc, hin⟩
          · exact ⟨sd0, List.mem_cons_of_mem _ h0, hcond0, hmem0⟩
        · rintro ⟨sd0, h0, hcond0, hmem0⟩
          rcases List.mem_cons.mp h0 with rfl | h0'
          · exact Or.inl hmem0
          · exact Or.inr ⟨sd0, h0', hcond0, hmem0⟩
  rw [hfold (isort edgeLe edges)]
  constructor
  · rintro ⟨⟨s0, ds⟩, hsd, hcond, hmem⟩
    rcases List.mem_filterMap.mp hmem with ⟨d', hd', hf⟩
    split at hf
    · cases hf
    · rename_i hcond2
      rw [Option.some_inj, GLine.edge.injEq] at hf
      obtain ⟨rfl, rfl⟩ := hf
      exact ⟨ds, (mem_isort _ _ _).mp hsd, (mem_isort _ _ _).mp hd',
        by simpa using hcond, by simpa using hcond2⟩
  · rintro ⟨ds, hsd, hd, hcs, hcd⟩
    refine ⟨(s, ds), (mem_isort _ _ _).mpr hsd, by simpa using hcs, ?_⟩
    refine List.mem_filterMap.mpr ⟨d, (mem_isort _ _ _).mpr hd, ?_⟩
    rw [if_neg (by simp [hcd])]

theorem keys_eadd (E : List (MigId × List MigId)) (s d : MigId) :
    (eadd E s d).map Prod.fst =
      if s ∈ E.map Prod.fst then E.map Prod.fst else E.map Prod.fst ++ [s] := by
  induction E with
  | nil => simp [eadd]
  | cons kv rest ih =>
    obtain ⟨k, ds⟩ := kv
    by_cases hk : k = s
    · subst hk
      simp [eadd]
    · have hk' : ¬ s = k := fun h => hk h.symm
      simp only [eadd, if_neg hk, List.map_cons, ih, List.mem_cons, hk']
      by_cases hmem : s ∈ rest.map Prod.fst
      · simp [hmem]
      · simp [hmem, hk']

theorem nodup_keys_eadd (E : List (MigId × List MigId)) (s d : MigId)
    (h : (E.map Prod.fst).Nodup) : ((eadd E s d).map Prod.fst).Nodup := by
  rw [keys_eadd]
  by_cases hmem : s ∈ E.map Prod.fst
  · rwa [if_pos hmem]
  · rw [if_neg hmem]
    rw [List.nodup_append]
    exact ⟨h, List.nodup_singleton s, by simpa using hmem⟩

theorem eget_of_mem_nodup (E : List (MigId × List MigId)) (s : MigId)
    (ds : List MigId) (hnd : (E.map Prod.fst).Nodup) (hmem : (s, ds) ∈ E) :
    eget E s = ds := by
  induction E with
  | nil => cases hmem
  | cons kv rest ih =>
    obtain ⟨k, ds0⟩ := kv
    rcases List.mem_cons.mp hmem with heq | hmem'
    · rw [Prod.mk.injEq] at heq
      obtain ⟨rfl, rfl⟩ := heq
      simp [eget]
    · have hk : k ≠ s := by
        intro heq
        apply (List.nodup_cons.mp hnd).1
        rw [heq]
        exact List.mem_map.mpr ⟨(s, ds), hmem', rfl⟩
      simp only [eget, if_neg hk]
      exact ih (List.nodup_cons.mp hnd).2 hmem'

theorem depStep_keys_nodup (appNames : List String) (m : List (MigId × MigId))
    (res : MigId → MigId) (rid : MigId) (acc : BuildOut) (e : Entry)
    (h : (acc.edges.map Prod.fst).Nodup) :
    ((depStep appNames m res rid acc e).edges.map Prod.fst).Nodup := by
  cases e with
  | junk => exact h
  | id src =>
    rw [depStep_edges_eq]
    by_cases hg : (res src).1 ∈ appNames
    · rw [if_pos hg]
      exact nodup_keys_eadd _ _ _ h
    · rwa [if_neg hg]

theorem buildGraph_keys_nodup (recs : List Rec) (appNames : List String)
    (m : List (MigId × MigId)) (res : MigId → MigId) :
    (((buildGraph recs appNames m res).edges).map Prod.fst).Nodup := by
  unfold buildGraph
  suffices h : ∀ acc : BuildOut, (acc.edges.map Prod.fst).Nodup →
      (((recs.foldl (buildStep appNames m res) acc).edges).map Prod.fst).Nodup from
    h ⟨[], [], []⟩ (by simp)
  induction recs with
  | nil => intro acc hacc; exact hacc
  | cons r recs ih =>
    intro acc hacc
    simp only [List.foldl_cons]
    refine ih _ ?_
    unfold buildStep
    by_cases hg : r.id.1 ∈ appNames
    · rw [if_pos hg]
      have hproj : ({ r.dependencies.foldl (depStep appNames m res r.id) acc with
          nodes := nadd (r.dependencies.foldl (depStep appNames m res r.id) acc).nodes r.id }).edges =
          (r.dependencies.foldl (depStep appNames m res r.id) acc).edges := rfl
      rw [hproj]
      clear hproj
      induction r.dependencies generalizing acc with
      | nil => exact hacc
      | cons e es ihe =>
        simp only [List.foldl_cons]
        exact ihe _ (depStep_keys_nodup _ _ _ _ _ _ hacc)
    · rwa [if_neg hg]

theorem dinsert_mem (m : List (MigId × MigId)) (k v : MigId) (kv : MigId × MigId)
    (h : kv ∈ dinsert m k v) : kv = (k, v) ∨ kv ∈ m := by
  induction m with
  | nil =>
    simp only [dinsert, List.mem_singleton] at h
    exact Or.inl h
  | cons kv0 rest ih =>
    obtain ⟨k0, v0⟩ := kv0
    by_cases hk : k0 = k
    · subst hk
      have h' : kv ∈ (k0, v) :: rest := by simpa [dinsert] using h
      rcases List.mem_cons.mp h' with heq | hmem
      · exact Or.inl heq
      · exact Or.inr (List.mem_cons_of_mem _ hmem)
    · have h' : kv ∈ (k0, v0) :: dinsert rest k v := by simpa [dinsert, hk] using h
      rcases List.mem_cons.mp h' with heq | hmem
      · refine Or.inr ?_
        rw [heq]
        exact List.mem_cons_self _ _
      · rcases ih hmem with heq | hm2
        · exact Or.inl heq
        · exact Or.inr (List.mem_cons_of_mem _ hm2)

theorem discover_values (recs : List Rec) (appNames : List String)
    (k v : MigId) (h : (k, v) ∈ (discoverReplacements recs appNames).1) :
    ∃ r : Rec, r ∈ recs ∧ v = r.id := by
  unfold discoverReplacements at h
  rw [discover_fst] at h
  suffices hgen : ∀ acc : List (MigId × MigId),
      (k, v) ∈ recs.foldl (fun m r => r.replaces.foldl (fun m e =>
        match e with
        | Entry.id rep => if rep.1 ∈ appNames then dinsert m rep r.id else m
        | Entry.junk => m) m) acc →
      (k, v) ∈ acc ∨ ∃ r : Rec, r ∈ recs ∧ v = r.id by
    rcases hgen [] h with hin | hout
    · cases hin
    · exact hout
  clear h
  induction recs with
  | nil => intro acc h; exact Or.inl h
  | cons r recs ih =>
    intro acc h
    simp only [List.foldl_cons] at h
    rcases ih _ h with hin | ⟨r0, hr0, rfl⟩
    · have hinner : ∀ (es : List Entry) (macc : List (MigId × MigId)),
          (k, v) ∈ es.foldl (fun m e =>
            match e with
            | Entry.id rep => if rep.1 ∈ appNames then dinsert m rep r.id else m
            | Entry.junk => m) macc →
          (k, v) ∈ macc ∨ v = r.id := by
        intro es
        induction es with
        | nil => intro macc hm; exact Or.inl hm
        | cons e es ihe =>
          intro macc hm
          simp only [List.foldl_cons] at hm
          rcases ihe _ hm with hm' | hv
          · cases e with
            | junk => exact Or.inl hm'
            | id rep =>
              have hm2 : (k, v) ∈
                  (if rep.1 ∈ appNames then dinsert macc rep r.id else macc) := hm'
              by_cases hg : rep.1 ∈ appNames
              · rw [if_pos hg] at hm2
                rcases dinsert_mem _ _ _ _ hm2 with heq | hmm
                · rw [Prod.mk.injEq] at heq
                  exact Or.inr heq.2
                · exact Or.inl hmm
              · rw [if_neg hg] at hm2
                exact Or.inl hm2
          · exact Or.inr hv
      rcases hinner r.replaces acc hin with hacc | hv
      · exact Or.inl hacc
      · exact Or.inr ⟨r, List.mem_cons_self _ _, hv⟩
    · exact Or.inr ⟨r0, List.mem_cons_of_mem _ hr0, rfl⟩

/-- The replacement map of one run of the command on the given input. -/
@[reducible] def pipeM (recs : List Rec) (appNames : List String) : List (MigId × MigId) :=
  (discoverReplacements (loadRecs recs appNames) appNames).1

/-- The squashing-record set of one run of the command. -/
@[reducible] def pipeSq (recs : List Rec) (appNames : List String) : List MigId :=
  (discoverReplacements (loadRecs recs appNames) appNames).2

/-- The graph built by one run of the command (load, discover, build). -/
@[reducible] def pipeBuild (recs : List Rec) (appNames : List String)
    (res : MigId → MigId) : BuildOut :=
  buildGraph (loadRecs recs appNames) appNames (pipeM recs appNames) res

/-- The GraphViz lines written by one run of the command. -/
@[reducible] def pipeLines (recs : List Rec) (appNames : List String) (hide : Bool)
    (res : MigId → MigId) : List GLine :=
  renderLines (pipeBuild recs appNames res).nodes (pipeBuild recs appNames res).edges
    (pipeM recs appNames) (pipeSq recs appNames) hide

theorem nodeLines_shape (nodes : List MigId) (edges : List (MigId × List MigId))
    (m : List (MigId × MigId)) (sq : List MigId) (hide : Bool) :
    ∀ g ∈ nodeLines nodes edges m sq hide, ∃ x c l, g = GLine.node x c l := by
  intro g hg
  rcases List.mem_filterMap.mp hg with ⟨s, -, hf⟩
  split at hf
  · cases hf
  · rw [Option.some_inj] at hf
    exact ⟨s, _, _, hf.symm⟩

theorem extraEdgeLines_shape (m : List (MigId × MigId)) (hide : Bool) :
    ∀ g ∈ extraEdgeLines m hide, ∃ s d, g = GLine.edge s d := by
  intro g hg
  unfold extraEdgeLines at hg
  split at hg
  · cases hg
  · rcases List.mem_map.mp hg with ⟨kv, -, hf⟩
    exact ⟨kv.1, kv.2, hf.symm⟩

theorem regularEdgeLines_shape (edges : List (MigId × List MigId))
    (m : List (MigId × MigId)) (hide : Bool) :
    ∀ g ∈ regularEdgeLines edges m hide, ∃ s d, g = GLine.edge s d := by
  unfold regularEdgeLines
  generalize (isort edgeLe edges) = L
  induction L with
  | nil => intro g hg; cases hg
  | cons sd L ih =>
    intro g hg
    simp only [List.foldr_cons] at hg
    by_cases hc : (isKey m sd.1 && hide) = true
    · rw [if_pos hc] at hg
      exact ih g hg
    · rw [if_neg hc] at hg
      rcases List.mem_append.mp hg with hin | hrest
      · rcases List.mem_filterMap.mp hin with ⟨d', -, hf⟩
        split at hf
        · cases hf
        · rw [Option.some_inj] at hf
          exact ⟨sd.1, d', hf.symm⟩
      · exact ih g hrest

/-- C2 counterexample input: one squashing record replacing an id that is
neither loaded nor depended upon. -/
def danglingRecs : List Rec :=
  [⟨("app", "s"), [], [Entry.id ("app", "old")], "app/migrations/s.py", "S"⟩]

/-- Whether some emitted node line declares the identifier `x`. -/
def hasNodeFor (lines : List GLine) (x : MigId) : Bool :=
  lines.any (fun g =>
    match g with
    | GLine.node i _ _ => i == x
    | GLine.edge _ _ => false)

/-- C2 counterexample: with `hideReplaced` false, the extra
replaced-to-replacement edge written at lines 130-132 references
`("app", "old")`, but no node line declares it — a dangling reference,
contradicting the claim for the extra edges. -/
theorem extra_edge_dangling_reference :
    GLine.edge ("app", "old") ("app", "s") ∈
      pipeLines danglingRecs ["app"] false (fun x => x) ∧
    hasNodeFor (pipeLines danglingRecs ["app"] false (fun x => x))
      ("app", "old") = false := by decide

/-- C2 amended: every RecordId of a regular emitted edge line also has an
emitted node line, and so does the destination of every extra
replaced-to-replacement edge line; the source of an extra edge may dangle
(see the counterexample) because a replaced id that is neither loaded nor
depended upon is never registered in `all_nodes`.  When `hideReplaced` is
true, no key of the replacement map appears in any emitted node or edge
line. -/
theorem render_no_dangling_amended (recs : List Rec) (appNames : List String)
    (hide : Bool) (res : MigId → MigId) :
    (∀ s d : MigId,
      GLine.edge s d ∈ regularEdgeLines (pipeBuild recs appNames res).edges
          (pipeM recs appNames) hide →
        (∃ c l : String, GLine.node s c l ∈ pipeLines recs appNames hide res) ∧
        (∃ c l : String, GLine.node d c l ∈ pipeLines recs appNames hide res)) ∧
    (∀ s d : MigId,
      GLine.edge s d ∈ extraEdgeLines (pipeM recs appNames) hide →
        ∃ c l : String, GLine.node d c l ∈ pipeLines recs appNames hide res) ∧
    (hide = true →
      (∀ s d : MigId, GLine.edge s d ∈ pipeLines recs appNames hide res →
        isKey (pipeM recs appNames) s = false ∧ isKey (pipeM recs appNames) d = false) ∧
      (∀ (x : MigId) (c l : String),
        GLine.node x c l ∈ pipeLines recs appNames hide res →
        isKey (pipeM recs appNames) x = false)) := by
  have hnl : ∀ x : MigId, x ∈ (pipeBuild recs appNames res).nodes →
      (isKey (pipeM recs appNames) x && hide) = false →
      ∃ c l : String, GLine.node x c l ∈ pipeLines recs appNames hide res := by
    intro x hx hcond
    refine ⟨_, _, List.mem_append.mpr (Or.inl (List.mem_append.mpr (Or.inl
      ((nodeLines_mem_iff _ _ _ _ _ _ _ _).mpr ⟨hx, hcond, rfl, rfl⟩))))⟩
  refine ⟨?_, ?_, ?_⟩
  · intro s d hmem
    rcases (regularEdgeLines_mem_iff _ _ _ _ _).mp hmem with ⟨ds, hpair, hd, hcs, hcd⟩
    have heq : eget (pipeBuild recs appNames res).edges s = ds :=
      eget_of_mem_nodup _ _ _ (buildGraph_keys_nodup _ _ _ _) hpair
    have hedge : d ∈ eget (pipeBuild recs appNames res).edges s := by
      rw [heq]; exact hd
    rcases (buildGraph_eget _ _ _ _ _ _).mp hedge with
      ⟨r, hr, hgrp, src, hsrc, hgres, hseq, hdeq⟩
    constructor
    · refine hnl s ?_ hcs
      exact (buildGraph_nodes _ _ _ _ _).mpr ⟨r, hr, hgrp, Or.inr ⟨src, hsrc, hgres, hseq⟩⟩
    · refine hnl d ?_ hcd
      exact (buildGraph_nodes _ _ _ _ _).mpr ⟨r, hr, hgrp, Or.inl hdeq⟩
  · intro s d hmem
    rcases (extraEdgeLines_mem_iff _ _ _ _).mp hmem with ⟨hhide, hpair⟩
    rcases discover_values _ _ _ _ hpair with ⟨r, hr, hdeq⟩
    have hgrp : r.id.1 ∈ appNames := by
      have := List.mem_filter.mp hr
      simpa using this.2
    refine hnl d ?_ ?_
    · exact (buildGraph_nodes _ _ _ _ _).mpr ⟨r, hr, hgrp, Or.inl hdeq⟩
    · rw [hhide]
      exact Bool.and_false _
  · intro hhide
    subst hhide
    constructor
    · intro s d hmem
      rcases List.mem_append.mp hmem with hmem' | hreg
      · rcases List.mem_append.mp hmem' with hnode | hextra
        · rcases nodeLines_shape _ _ _ _ _ _ hnode with ⟨x, c, l, heq⟩
          cases heq
        · have hempty : extraEdgeLines (pipeM recs appNames) true = [] := rfl
          rw [hempty] at hextra
          cases hextra
      · rcases (regularEdgeLines_mem_iff _ _ _ _ _).mp hreg with ⟨-, -, -, hcs, hcd⟩
        exact ⟨by simpa using hcs, by simpa using hcd⟩
    · intro x c l hmem
      rcases List.mem_append.mp hmem with hmem' | hreg
      · rcases List.mem_append.mp hmem' with hnode | hextra
        · rcases (nodeLines_mem_iff _ _ _ _ _ _ _ _).mp hnode with ⟨-, hcond, -, -⟩
          simpa using hcond
        · have hempty : extraEdgeLines (pipeM recs appNames) true = [] := rfl
          rw [hempty] at hextra
          cases hextra
      · rcases regularEdgeLines_shape _ _ _ _ hreg with ⟨s, d, heq⟩
        cases heq

theorem render_no_dangling_amended_witness :
    (∃ c l : String, GLine.node ("app", "0003_squashed") c l ∈
      pipeLines squashRecs ["app"] true
        (fun x => (resolveFuel (pipeM squashRecs ["app"]) true 3 x).getD x)) ∧
    isKey (pipeM squashRecs ["app"]) ("app", "0003_squashed") = false := by
  have h := render_no_dangling_amended squashRecs ["app"] true
    (fun x => (resolveFuel (pipeM squashRecs ["app"]) true 3 x).getD x)
  refine ⟨(h.1 ("app", "0003_squashed") ("app", "0004") (by decide)).1, ?_⟩
  exact ((h.2.2 rfl).1 ("app", "0003_squashed") ("app", "0004")
    (by decide)).1

/-- C5 counterexample input: `x` in group `a`; `y` in group `b` depends on
`x` (so the rendered edge `x -> y` crosses groups); `y` is replaced by `s`. -/
def crossRecs : List Rec :=
  [⟨("a", "x"), [], [], "a/migrations/x.py", "X"⟩,
   ⟨("b", "y"), [Entry.id ("a", "x")], [], "b/migrations/y.py", "Y"⟩,
   ⟨("b", "s"), [], [Entry.id ("b", "y")], "b/migrations/s.py", "S"⟩]

/-- Whether some emitted node line marks `x` with the cross-group color. -/
def hasRedNode (lines : List GLine) (x : MigId) : Bool :=
  lines.any (fun g =>
    match g with
    | GLine.node i c _ => i == x && c == "#d9534f"
    | GLine.edge _ _ => false)

/-- C5 counterexample: with `hideReplaced` false, `y` is a replaced
destination in a different group than `x`, the edge `x -> y` is emitted,
yet `x` is rendered with the plain color, not the cross-group color: the
filter at line 117 excludes replaced destinations regardless of
`hideReplaced`, contradicting the claim's "when hideReplaced is false a
replaced destination in a different group still causes X to be marked
cross-group". -/
theorem replaced_dest_not_cross_marked :
    isKey (pipeM crossRecs ["a", "b"]) ("b", "y") = true ∧
    GLine.edge ("a", "x") ("b", "y") ∈
      pipeLines crossRecs ["a", "b"] false (fun x => x) ∧
    GLine.node ("a", "x") "#79aec8" "a:x" ∈
      pipeLines crossRecs ["a", "b"] false (fun x => x) ∧
    hasRedNode (pipeLines crossRecs ["a", "b"] false (fun x => x))
      ("a", "x") = false := by decide

theorem colorLabel_fst (s : MigId) (dset : List MigId) (m : List (MigId × MigId))
    (sq : List MigId) (h : isKey m s = false) :
    (colorLabel s dset m sq).1 =
      if dset.any (fun d => !isKey m d && d.1 != s.1) then "#d9534f"
      else "#79aec8" := by
  simp [colorLabel, h]

/-- C5 amended: a non-replaced node `x` is marked with the cross-group
color exactly when some destination of its edge set lies in a different
group and is itself not a replaced node — replaced destinations never
trigger the marking, whether or not replaced nodes are hidden. -/
theorem cross_group_marking_amended (recs : List Rec) (appNames : List String)
    (hide : Bool) (res : MigId → MigId) (x : MigId)
    (hkey : isKey (pipeM recs appNames) x = false)
    (hnode : x ∈ (pipeBuild recs appNames res).nodes) :
    (∃ l : String, GLine.node x "#d9534f" l ∈ pipeLines recs appNames hide res) ↔
      ∃ d : MigId, d ∈ eget (pipeBuild recs appNames res).edges x ∧
        isKey (pipeM recs appNames) d = false ∧ d.1 ≠ x.1 := by
  have hcond : (isKey (pipeM recs appNames) x && hide) = false := by
    rw [hkey]
    exact Bool.false_and _
  constructor
  · rintro ⟨l, hmem⟩
    have hnl : GLine.node x "#d9534f" l ∈
        nodeLines (pipeBuild recs appNames res).nodes
          (pipeBuild recs appNames res).edges (pipeM recs appNames)
          (pipeSq recs appNames) hide := by
      rcases List.mem_append.mp hmem with hmem' | hreg
      · rcases List.mem_append.mp hmem' with hnodes | hextra
        · exact hnodes
        · rcases extraEdgeLines_shape _ _ _ hextra with ⟨s0, d0, heq⟩
          cases heq
      · rcases regularEdgeLines_shape _ _ _ _ hreg with ⟨s0, d0, heq⟩
        cases heq
    rcases (nodeLines_mem_iff _ _ _ _ _ _ _ _).mp hnl with ⟨-, -, hc, -⟩
    rw [colorLabel_fst _ _ _ _ hkey] at hc
    by_cases hany : (eget (pipeBuild recs appNames res).edges x).any
        (fun d => !isKey (pipeM recs appNames) d && d.1 != x.1) = true
    · rcases List.any_eq_true.mp hany with ⟨d, hd, hf⟩
      rcases Bool.and_eq_true_iff.mp hf with ⟨hnk, hne⟩
      exact ⟨d, hd, by simpa using hnk, bne_iff_ne.mp hne⟩
    · rw [if_neg hany] at hc
      exact absurd hc (by decide)
  · rintro ⟨d, hd, hdkey, hdgrp⟩
    have hany : (eget (pipeBuild recs appNames res).edges x).any
        (fun d => !isKey (pipeM recs appNames) d && d.1 != x.1) = true :=
      List.any_eq_true.mpr ⟨d, hd,
        Bool.and_eq_true_iff.mpr ⟨by simp [hdkey], bne_iff_ne.mpr hdgrp⟩⟩
    refine ⟨(colorLabel x (eget (pipeBuild recs appNames res).edges x)
      (pipeM recs appNames) (pipeSq recs appNames)).2,
      List.mem_append.mpr (Or.inl (List.mem_append.mpr (Or.inl
        ((nodeLines_mem_iff _ _ _ _ _ _ _ _).mpr ⟨hnode, hcond, ?_, rfl⟩))))⟩
    rw [colorLabel_fst _ _ _ _ hkey, if_pos hany]

/-- C5 amended witness input: `w` in group `b` depends on `x` in group `a`;
nothing is replaced. -/
def crossRecs2 : List Rec :=
  [⟨("a", "x"), [], [], "a/migrations/x.py", "X"⟩,
   ⟨("b", "w"), [Entry.id ("a", "x")], [], "b/migrations/w.py", "W"⟩]

theorem cross_group_marking_amended_witness :
    ∃ l : String, GLine.node ("a", "x") "#d9534f" l ∈
      pipeLines crossRecs2 ["a", "b"] false (fun x => x) := by
  have h := cross_group_marking_amended crossRecs2 ["a", "b"] false (fun x => x)
    ("a", "x") (by decide) (by decide)
  exact h.mpr ⟨("b", "w"), by decide, by decide, by decide⟩
